import Mathlib

/-!
Verification of the `tasker-lib` TaskRunner (`src/TaskRunner.ts`).

The TypeScript class `TaskRunner` keeps a mutable map from task names to
records `{dependencies, task, promise, visited, startTime}` together with a
`taskErrorMap` and an `execInProgress` flag.  All graph traversal performed by
`run`/`runTask` happens synchronously on one JavaScript event loop: the `for`
loop inside `runAllDependentTasks` invokes `runTask` recursively and
synchronously, so the `visited` marks, the cycle check and the promise
memoization are all resolved in a single deterministic descent.  Task bodies
are modelled as pure functions `ResultMap V → Except E V` (the Promisifier
collapses the three calling conventions into exactly this shape: one result
value or one error).  A settled promise is therefore modelled by its outcome
`Except (RunErr E) V`, and the in-flight memoized promise of a task by the
`promise : Option (Except (RunErr E) V)` field, exactly as `TaskInfo.promise`
in the source.  The per-task `promise = null` reset performed by the first
`.then` attached in `runTask` (line 277-284) runs, for every task whose
promise resolved, strictly before the top-level run settles; it is modelled by
the `sweep` pass at the end of `run`.  Rejected promises are never reset by
the source, and `sweep` faithfully keeps them.

General recursion of `runTask` is embedded with an explicit `fuel` counter;
in the source, termination of the synchronous descent is guaranteed by the
`visited` cycle check, and the theorems below show that a fuel of
`names.length + 1` (the value used by `run`) is never exhausted.

Two instrumentation fields record the observable events the specification
talks about: `invocationLog` logs every invocation of a task operation
together with the ResultMap it received (the call `task.task(dependencyResults)`
in `runStandaloneTask`, line 290), and `cycleLog` logs every cycle rejection
`Cycle found at '<name>'` (line 249) with the name it mentions.
-/

namespace TaskerLib

/-- Map from direct dependency names to their results, handed to a task body
(`TaskResultMap` in the source).  Keys are looked up with `List.lookup`. -/
abbrev ResultMap (V : Type) := List (String × V)

/-- The errors produced inside a run, mirroring the `Error` objects created in
`TaskRunner.ts`: `Task '<name>' not found` (line 245), `Cycle found at
'<name>'` (line 249), `Dependency failures: <names>` (lines 328/335), and a
task body's own error.  `outOfFuel` is an artefact of the fuel-based
embedding; the theorems show it never occurs at the fuel `run` uses. -/
inductive RunErr (E : Type) where
  | notFound (taskName : String)
  | cycle (taskName : String)
  | depFailures (failed : List String)
  | body (e : E)
  | outOfFuel
  deriving DecidableEq

/-- The record stored per task (`TaskInfo` in the source); `startTime` is
wall-clock instrumentation only and is not modelled. -/
structure TaskInfo (V E : Type) where
  dependencies : List String
  task : ResultMap V → Except E V
  promise : Option (Except (RunErr E) V)
  visited : Bool

/-- The persistent and per-run state of a `TaskRunner` instance.  `taskMap`
and `names` together model the JavaScript object `taskMap` (`names` keeps its
finite key list); `taskErrorMap` and `execInProgress` are the fields of the
same names; `invocationLog` and `cycleLog` record observable events. -/
structure RunnerState (V E : Type) where
  taskMap : String → Option (TaskInfo V E)
  names : List String
  taskErrorMap : List (String × RunErr E)
  execInProgress : Bool
  throwOnOverwrite : Bool
  invocationLog : List (String × ResultMap V)
  cycleLog : List String

/-- Errors thrown synchronously by the mutation methods: the concurrency
guard `throwIfInProgress` (line 304), the overwrite check of `addTask`
(line 92) and the missing-task check of `addDependencies` (line 159). -/
inductive MutErr where
  | concurrency
  | overwrite (taskName : String)
  | unknownTask (taskName : String)
  deriving DecidableEq

variable {V E : Type}

/-- Apply `f` to the record stored under `name`, as a field assignment on
`this.taskMap[name]` does. -/
def updateTask (s : RunnerState V E) (name : String) (f : TaskInfo V E → TaskInfo V E) :
    RunnerState V E :=
  { s with taskMap := fun n => if n = name then (s.taskMap n).map f else s.taskMap n }

/-- `TaskRunner.addTask` (lines 85-111).  The null-name check is vacuous for
Lean strings; then `throwIfInProgress`, then the overwrite check.  The
dependency list is stored exactly as passed (line 106: `dependencies:
dependencies`); the overload normalisation of string/array/function arguments
is TypeScript-level sugar and the list form is modelled. -/
def addTask (s : RunnerState V E) (taskName : String) (dependencies : List String)
    (task : ResultMap V → Except E V) : RunnerState V E × Option MutErr :=
  if s.execInProgress then (s, some .concurrency)
  else if s.throwOnOverwrite && (s.taskMap taskName).isSome then
    (s, some (.overwrite taskName))
  else
    ({ s with
        taskMap := fun n => if n = taskName then
            some { dependencies := dependencies, task := task, promise := none, visited := false }
          else s.taskMap n,
        names := if (s.taskMap taskName).isSome then s.names else s.names ++ [taskName] },
      none)

/-- `TaskRunner.removeTask` (lines 119-126): `delete this.taskMap[taskName]`,
leaving other tasks' references to it intact. -/
def removeTask (s : RunnerState V E) (taskName : String) : RunnerState V E × Option MutErr :=
  if s.execInProgress then (s, some .concurrency)
  else
    ({ s with
        taskMap := fun n => if n = taskName then none else s.taskMap n,
        names := s.names.erase taskName },
      none)

/-- The dependency-append loop of `addDependencies` (lines 153-157): push each
new dependency unless `indexOf` finds it in the current list. -/
def appendDeps (existing : List String) (dependencies : List String) : List String :=
  dependencies.foldl (fun acc d => if acc.contains d then acc else acc ++ [d]) existing

/-- `TaskRunner.addDependencies` (lines 138-161): concurrency guard, then
either extend the existing task's list (deduplicating against it) or throw
`Can't add dependency for missing task <name>`. -/
def addDependencies (s : RunnerState V E) (taskName : String) (dependencies : List String) :
    RunnerState V E × Option MutErr :=
  if s.execInProgress then (s, some .concurrency)
  else
    match s.taskMap taskName with
    | some _ =>
        (updateTask s taskName (fun i => { i with dependencies := appendDeps i.dependencies dependencies }),
          none)
    | none => (s, some (.unknownTask taskName))

/-- `TaskRunner.removeDependencies` (lines 171-190): concurrency guard, then
filter the list if the task exists; if the task does not exist the method
silently does nothing (the `if (task)` has no `else` branch). -/
def removeDependencies (s : RunnerState V E) (taskName : String) (dependencies : List String) :
    RunnerState V E × Option MutErr :=
  if s.execInProgress then (s, some .concurrency)
  else
    match s.taskMap taskName with
    | some _ =>
        (updateTask s taskName (fun i =>
            { i with dependencies := i.dependencies.filter (fun d => !dependencies.contains d) }),
          none)
    | none => (s, none)

/-- `TaskRunner.runStandaloneTask` (lines 288-300): invoke the normalized
operation with the dependency results; on failure record the error in
`taskErrorMap` and rethrow.  The invocation itself is logged. -/
def runStandaloneTask (s : RunnerState V E) (info : TaskInfo V E) (taskName : String)
    (dependencyResults : ResultMap V) : RunnerState V E × Except (RunErr E) V :=
  let s₁ := { s with invocationLog := s.invocationLog ++ [(taskName, dependencyResults)] }
  match info.task dependencyResults with
  | .ok v => (s₁, .ok v)
  | .error e =>
      ({ s₁ with taskErrorMap := (taskName, RunErr.body e) :: s₁.taskErrorMap },
        .error (.body e))

/-- `TaskRunner.runAllDependentTasks` (lines 314-340), parameterized by the
step that resolves one dependency: run every name in the list (the `for` loop
starts all of them regardless of earlier failures, since the default
`stopOnFirstError` is `false`), collecting results of the successful ones and
the names of the failed ones (the failed dependency's own error is dropped,
only its name is pushed onto `failedTasks`). -/
def runAllDependentTasks
    (step : RunnerState V E → String → RunnerState V E × Except (RunErr E) V) :
    RunnerState V E → List String →
      RunnerState V E × ResultMap V × List String
  | s, [] => (s, [], [])
  | s, name :: rest =>
      match step s name with
      | (s₁, .ok v) =>
          let (s₂, results, failed) := runAllDependentTasks step s₁ rest
          (s₂, (name, v) :: results, failed)
      | (s₁, .error _) =>
          let (s₂, results, failed) := runAllDependentTasks step s₁ rest
          (s₂, results, name :: failed)

/-- `task.visited = true` (line 262). -/
def markVisited : TaskInfo V E → TaskInfo V E :=
  fun i => { i with visited := true }

/-- The net effect of storing the settled promise (lines 264/273, the
assignment to `task.promise`) together with `task.visited = false`
(line 275). -/
def settle (outcome : Except (RunErr E) V) : TaskInfo V E → TaskInfo V E :=
  fun i => { i with promise := some outcome, visited := false }

/-- The dependency phase of the fresh path of `runTask` (lines 263-274): with
no dependencies run the body on the empty map at once; otherwise resolve
every dependency and run the body exactly when none failed, the outcome
otherwise being the `Dependency failures` rejection. -/
def runTaskBody
    (recur : RunnerState V E → String → RunnerState V E × Except (RunErr E) V)
    (s : RunnerState V E) (info : TaskInfo V E) (taskName : String) :
    RunnerState V E × Except (RunErr E) V :=
  match info.dependencies with
  | [] => runStandaloneTask s info taskName []
  | d :: rest =>
      match runAllDependentTasks recur s (d :: rest) with
      | (sd, results, []) => runStandaloneTask sd info taskName results
      | (sd, _, f :: fs) => (sd, .error (.depFailures (f :: fs)))

/-- `TaskRunner.runTask` (lines 242-286).  In order: the not-found check, the
`visited` cycle check (logging the `Cycle found at '<name>'` rejection), the
memoized-promise check, then the fresh path: mark visited, resolve the
dependencies and possibly the body via `runTaskBody`, store the outcome as
the task's promise and clear `visited`.  The stored promise is cleared again
only by the per-task reset that `sweep` models at the end of the run. -/
def runTask : Nat → RunnerState V E → String → RunnerState V E × Except (RunErr E) V
  | 0, s, _ => (s, .error .outOfFuel)
  | fuel + 1, s, taskName =>
      match s.taskMap taskName with
      | none => (s, .error (.notFound taskName))
      | some info =>
          if info.visited then
            ({ s with cycleLog := s.cycleLog ++ [taskName] }, .error (.cycle taskName))
          else
            match info.promise with
            | some outcome => (s, outcome)
            | none =>
                match runTaskBody (runTask fuel) (updateTask s taskName markVisited) info taskName with
                | (s₂, outcome) => (updateTask s₂ taskName (settle outcome), outcome)

/-- The per-task promise reset (line 283, `task.promise = null`).  It runs in
a `.then` handler, i.e. only for promises that resolved successfully, and for
each of those it runs before the top-level run settles; rejected promises are
never cleared by the source. -/
def sweep (s : RunnerState V E) : RunnerState V E :=
  { s with taskMap := fun n =>
      (s.taskMap n).map (fun i =>
        match i.promise with
        | some (.ok _) => { i with promise := none }
        | _ => i) }

/-- The observable outcome of a `run` call: a synchronous throw from
`throwIfInProgress`, a resolution, or a rejection with the `TaskRunError`
wrapping the final `taskErrorMap` (`failedTaskMap` in `TaskRunError.ts`). -/
inductive RunResult (V E : Type) where
  | threw
  | resolved (v : V)
  | rejected (failedTaskMap : List (String × RunErr E))
  deriving DecidableEq

/-- `TaskRunner.run` (lines 221-240) at an explicit fuel: the concurrency
guard, reset of `taskErrorMap` (and of the per-run instrumentation logs),
resolution of the requested task, and on failure the insertion of the
requested task's name into the map before wrapping it in the single
`TaskRunError`.  `execInProgress` is cleared on both exits. -/
def runWith (fuel : Nat) (s : RunnerState V E) (taskName : String) :
    RunnerState V E × RunResult V E :=
  if s.execInProgress then (s, .threw)
  else
    let s₀ := { s with execInProgress := true, taskErrorMap := [],
                       invocationLog := [], cycleLog := [] }
    match runTask fuel s₀ taskName with
    | (s₁, .ok v) => (sweep { s₁ with execInProgress := false }, .resolved v)
    | (s₁, .error e) =>
        let m := (taskName, e) :: s₁.taskErrorMap
        (sweep { s₁ with execInProgress := false, taskErrorMap := m }, .rejected m)

/-- `TaskRunner.run`: the fuel `names.length + 1` always suffices because
every nested `runTask` call marks one more task visited and a repeated task
is stopped by the cycle check. -/
def run (s : RunnerState V E) (taskName : String) : RunnerState V E × RunResult V E :=
  runWith (s.names.length + 1) s taskName

/-- A fresh runner (`new TaskRunner()` with default options). -/
def initialState (V E : Type) : RunnerState V E :=
  { taskMap := fun _ => none, names := [], taskErrorMap := [], execInProgress := false,
    throwOnOverwrite := true, invocationLog := [], cycleLog := [] }

/-- The memoized promise currently stored for task `t` (`none` when the task
is unregistered or has no promise in flight). -/
def promiseOf (s : RunnerState V E) (t : String) : Option (Except (RunErr E) V) :=
  (s.taskMap t).bind TaskInfo.promise

/-- The `visited` mark of task `t` (`false` when unregistered). -/
def visitedOf (s : RunnerState V E) (t : String) : Bool :=
  ((s.taskMap t).map TaskInfo.visited).getD false

/-- The stored dependency list of task `t`. -/
def depsOf (s : RunnerState V E) (t : String) : Option (List String) :=
  (s.taskMap t).map TaskInfo.dependencies

/-- The stored operation of task `t`. -/
def opOf (s : RunnerState V E) (t : String) : Option (ResultMap V → Except E V) :=
  (s.taskMap t).map TaskInfo.task

/-- The number of registered, currently unvisited tasks; the bound on the
depth the synchronous descent can still nest. -/
def unvisitedCount (s : RunnerState V E) : Nat :=
  (s.names.filter (fun n => !(visitedOf s n))).length

/-- `b` is a direct dependency of `a` in the stored graph. -/
def dependsOn (s : RunnerState V E) (a b : String) : Prop :=
  ∃ ds, depsOf s a = some ds ∧ b ∈ ds

/-- `b` is in the transitive dependency closure of `a` (including `a`). -/
def Reaches (s : RunnerState V E) (a b : String) : Prop :=
  Relation.ReflTransGen (dependsOn s) a b

/-- The stored graph is acyclic: no task depends on itself through one or
more dependency edges. -/
def AcyclicGraph (s : RunnerState V E) : Prop :=
  ∀ t, ¬ Relation.TransGen (dependsOn s) t t

/-- Every dependency of a registered task is itself registered. -/
def WellFormedGraph (s : RunnerState V E) : Prop :=
  ∀ a ds, depsOf s a = some ds → ∀ d ∈ ds, (depsOf s d).isSome

/-- Every registered operation succeeds on every input. -/
def OpsTotal (s : RunnerState V E) : Prop :=
  ∀ a op, opOf s a = some op → ∀ rm, ∃ v, op rm = Except.ok v

/-- No per-run transient state is pending: no memoized promise and no visited
mark.  This is the state of every graph freshly built through the mutation
API, and the state the specification's per-run TaskState model prescribes
between runs. -/
def Clean (s : RunnerState V E) : Prop :=
  ∀ a i, s.taskMap a = some i → i.promise = none ∧ i.visited = false

/-- `names` is exactly the key set of `taskMap`, without duplicates (the
invariant maintained by the mutation operations). -/
def Coherent (s : RunnerState V E) : Prop :=
  (∀ a, (s.taskMap a).isSome ↔ a ∈ s.names) ∧ s.names.Nodup

/-- A set of tasks each of which has a direct dependency inside the set
again: the member set of any dependency cycle `t₀ → t₁ → ⋯ → t₀` satisfies
this. -/
def SuccClosed (s : RunnerState V E) (C : List String) : Prop :=
  ∀ t ∈ C, ∃ ds, depsOf s t = some ds ∧ ∃ d, d ∈ ds ∧ d ∈ C

/-- The persistent part of the graph: for every name, the stored dependency
list and operation (but not the transient `promise`/`visited` fields). -/
def persistOf (s : RunnerState V E) : String → Option (List String × (ResultMap V → Except E V)) :=
  fun n => (s.taskMap n).map (fun i => (i.dependencies, i.task))

/-- How many times task `t` was invoked according to an invocation log. -/
def countInv (log : List (String × ResultMap V)) (t : String) : Nat :=
  (log.filter (fun p => p.1 == t)).length

/-- The persistent data (`persistOf`, the name list and the options) that the
run machinery never modifies. -/
def Framed (s s₂ : RunnerState V E) : Prop :=
  persistOf s₂ = persistOf s ∧ s₂.names = s.names ∧ s₂.throwOnOverwrite = s.throwOnOverwrite

theorem framed_refl (s : RunnerState V E) : Framed s s :=
  ⟨rfl, rfl, rfl⟩

theorem Framed.trans {s₁ s₂ s₃ : RunnerState V E} (h₁ : Framed s₁ s₂) (h₂ : Framed s₂ s₃) :
    Framed s₁ s₃ :=
  ⟨h₂.1.trans h₁.1, h₂.2.1.trans h₁.2.1, h₂.2.2.trans h₁.2.2⟩

/-- A field update that keeps a task's dependency list and operation leaves
the persistent projection unchanged. -/
theorem framed_updateTask (s : RunnerState V E) (name : String) (f : TaskInfo V E → TaskInfo V E)
    (hf : ∀ i, (f i).dependencies = i.dependencies ∧ (f i).task = i.task) :
    Framed s (updateTask s name f) := by
  refine ⟨?_, rfl, rfl⟩
  funext n
  simp only [persistOf, updateTask]
  by_cases h : n = name
  · simp only [h, if_pos rfl]
    cases s.taskMap name with
    | none => rfl
    | some i => simp [Option.map, (hf i).1, (hf i).2]
  · simp [h]

theorem markVisited_persist (i : TaskInfo V E) :
    (markVisited i).dependencies = i.dependencies ∧ (markVisited i).task = i.task :=
  ⟨rfl, rfl⟩

theorem settle_persist (o : Except (RunErr E) V) (i : TaskInfo V E) :
    ((settle o) i).dependencies = i.dependencies ∧ ((settle o) i).task = i.task :=
  ⟨rfl, rfl⟩

theorem framed_runStandaloneTask (s : RunnerState V E) (info : TaskInfo V E) (name : String)
    (rm : ResultMap V) : Framed s (runStandaloneTask s info name rm).1 := by
  unfold runStandaloneTask
  cases info.task rm with
  | ok v => exact ⟨rfl, rfl, rfl⟩
  | error e => exact ⟨rfl, rfl, rfl⟩

theorem framed_runAllDependentTasks
    (step : RunnerState V E → String → RunnerState V E × Except (RunErr E) V)
    (hstep : ∀ s n, Framed s (step s n).1) (l : List String) :
    ∀ s : RunnerState V E, Framed s (runAllDependentTasks step s l).1 := by
  induction l with
  | nil => intro s; exact framed_refl s
  | cons name rest ih =>
      intro s
      have h₁ := hstep s name
      cases hs : step s name with
      | mk s₁ r =>
        rw [hs] at h₁
        have h₂ := ih s₁
        cases hr : runAllDependentTasks step s₁ rest with
        | mk s₂ p =>
          rw [hr] at h₂
          cases r with
          | ok v => simpa [runAllDependentTasks, hs, hr] using h₁.trans h₂
          | error e => simpa [runAllDependentTasks, hs, hr] using h₁.trans h₂

theorem framed_runTaskBody
    (recur : RunnerState V E → String → RunnerState V E × Except (RunErr E) V)
    (hrecur : ∀ s n, Framed s (recur s n).1) (s : RunnerState V E) (info : TaskInfo V E)
    (name : String) : Framed s (runTaskBody recur s info name).1 := by
  unfold runTaskBody
  split
  · exact framed_runStandaloneTask s info name []
  · next d rest hdeps =>
      split
      · next sd results heq =>
          have h₁ := framed_runAllDependentTasks recur hrecur (d :: rest) s
          rw [heq] at h₁
          exact h₁.trans (framed_runStandaloneTask sd info name results)
      · next sd results f fs heq =>
          have h₁ := framed_runAllDependentTasks recur hrecur (d :: rest) s
          rw [heq] at h₁
          exact h₁

theorem framed_runTask (fuel : Nat) :
    ∀ (s : RunnerState V E) (name : String), Framed s (runTask fuel s name).1 := by
  induction fuel with
  | zero => intro s name; exact framed_refl s
  | succ fuel ih =>
      intro s name
      simp only [runTask]
      cases hm : s.taskMap name with
      | none => exact framed_refl s
      | some info =>
        by_cases hv : info.visited
        · simp only [hv, if_pos rfl, ite_true]
          exact ⟨rfl, rfl, rfl⟩
        · simp only [hv, ite_false, Bool.false_eq_true]
          cases hp : info.promise with
          | some outcome => exact framed_refl s
          | none =>
              have h₁ := framed_updateTask s name markVisited markVisited_persist
              have h₂ := framed_runTaskBody (runTask fuel) ih
                (updateTask s name markVisited) info name
              cases hb : runTaskBody (runTask fuel) (updateTask s name markVisited) info name with
              | mk s₂ outcome =>
                rw [hb] at h₂
                exact (h₁.trans h₂).trans
                  (framed_updateTask s₂ name (settle outcome) (settle_persist outcome))

theorem framed_sweep (s : RunnerState V E) : Framed s (sweep s) := by
  refine ⟨?_, rfl, rfl⟩
  funext n
  simp only [persistOf, sweep]
  cases s.taskMap n with
  | none => rfl
  | some i =>
      rcases i with ⟨deps, task, promise, visited⟩
      cases promise with
      | none => rfl
      | some o => cases o with
        | ok v => rfl
        | error e => rfl


section Helpers

variable {V E : Type}

theorem lookup_cons_self {β : Type} (a : String) (b : β) (l : List (String × β)) :
    ((a, b) :: l).lookup a = some b := by
  simp [List.lookup]

theorem lookup_cons_ne {β : Type} {a x : String} (b : β) (l : List (String × β)) (h : x ≠ a) :
    ((a, b) :: l).lookup x = l.lookup x := by
  simp [List.lookup, beq_eq_false_iff_ne.mpr h]

theorem lookup_mem {β : Type} : ∀ {l : List (String × β)} {a : String} {b : β},
    l.lookup a = some b → (a, b) ∈ l := by
  intro l
  induction l with
  | nil => intro a b h; simp [List.lookup] at h
  | cons p rest ih =>
      intro a b h
      cases p with
      | mk k v =>
        by_cases hk : k = a
        · subst hk
          rw [lookup_cons_self] at h
          cases h
          exact List.mem_cons_self _ _
        · rw [lookup_cons_ne v rest (fun he => hk he.symm)] at h
          exact List.mem_cons_of_mem _ (ih h)

theorem mem_lookup_isSome {β : Type} : ∀ {l : List (String × β)} {a : String} {b : β},
    (a, b) ∈ l → (l.lookup a).isSome = true := by
  intro l
  induction l with
  | nil => intro a b h; cases h
  | cons p rest ih =>
      intro a b h
      cases p with
      | mk k v =>
        by_cases hk : k = a
        · subst hk; rw [lookup_cons_self]; rfl
        · rw [lookup_cons_ne v rest (fun he => hk he.symm)]
          rcases List.mem_cons.mp h with heq | hmem
          · cases heq; exact absurd rfl hk
          · exact ih hmem

theorem lookup_isSome_iff {β : Type} (l : List (String × β)) (a : String) :
    (l.lookup a).isSome = true ↔ ∃ b, (a, b) ∈ l := by
  constructor
  · intro h
    cases hl : l.lookup a with
    | none => rw [hl] at h; cases h
    | some b => exact ⟨b, lookup_mem hl⟩
  · intro ⟨b, hb⟩
    exact mem_lookup_isSome hb

theorem nodup_append_singleton {α : Type} (l : List α) (a : α) :
    l.Nodup → a ∉ l → (l ++ [a]).Nodup := by
  intro h1 h2
  rw [List.nodup_append]
  exact ⟨h1, List.nodup_singleton a, by
    intro x hx hxa
    rw [List.mem_singleton] at hxa
    exact h2 (hxa ▸ hx)⟩

theorem taskMap_updateTask_self (s : RunnerState V E) (name : String)
    (f : TaskInfo V E → TaskInfo V E) (i : TaskInfo V E) (h : s.taskMap name = some i) :
    (updateTask s name f).taskMap name = some (f i) := by
  simp [updateTask, h]

theorem taskMap_updateTask_ne (s : RunnerState V E) (name : String)
    (f : TaskInfo V E → TaskInfo V E) (t : String) (h : t ≠ name) :
    (updateTask s name f).taskMap t = s.taskMap t := by
  simp [updateTask, h]

theorem log_updateTask (s : RunnerState V E) (name : String) (f : TaskInfo V E → TaskInfo V E) :
    (updateTask s name f).invocationLog = s.invocationLog := rfl

theorem err_updateTask (s : RunnerState V E) (name : String) (f : TaskInfo V E → TaskInfo V E) :
    (updateTask s name f).taskErrorMap = s.taskErrorMap := rfl

theorem cyclog_updateTask (s : RunnerState V E) (name : String) (f : TaskInfo V E → TaskInfo V E) :
    (updateTask s name f).cycleLog = s.cycleLog := rfl

theorem promiseOf_mark (s : RunnerState V E) (name : String) (t : String) :
    promiseOf (updateTask s name markVisited) t = promiseOf s t := by
  by_cases h : t = name
  · subst h
    cases hm : s.taskMap t with
    | none => simp [promiseOf, updateTask, hm]
    | some i => simp [promiseOf, updateTask, hm, markVisited]
  · simp [promiseOf, taskMap_updateTask_ne s name markVisited t h]

theorem visitedOf_mark_self (s : RunnerState V E) (name : String) (i : TaskInfo V E)
    (h : s.taskMap name = some i) :
    visitedOf (updateTask s name markVisited) name = true := by
  simp [visitedOf, updateTask, h, markVisited]

theorem visitedOf_mark_ne (s : RunnerState V E) (name : String) (t : String) (h : t ≠ name) :
    visitedOf (updateTask s name markVisited) t = visitedOf s t := by
  simp [visitedOf, taskMap_updateTask_ne s name markVisited t h]

theorem promiseOf_settle_self (s : RunnerState V E) (name : String) (o : Except (RunErr E) V)
    (i : TaskInfo V E) (h : s.taskMap name = some i) :
    promiseOf (updateTask s name (settle o)) name = some o := by
  simp [promiseOf, updateTask, h, settle]

theorem promiseOf_settle_ne (s : RunnerState V E) (name : String) (o : Except (RunErr E) V)
    (t : String) (h : t ≠ name) :
    promiseOf (updateTask s name (settle o)) t = promiseOf s t := by
  simp [promiseOf, taskMap_updateTask_ne s name (settle o) t h]

theorem visitedOf_settle_self (s : RunnerState V E) (name : String) (o : Except (RunErr E) V)
    (i : TaskInfo V E) (h : s.taskMap name = some i) :
    visitedOf (updateTask s name (settle o)) name = false := by
  simp [visitedOf, updateTask, h, settle]

theorem visitedOf_settle_ne (s : RunnerState V E) (name : String) (o : Except (RunErr E) V)
    (t : String) (h : t ≠ name) :
    visitedOf (updateTask s name (settle o)) t = visitedOf s t := by
  simp [visitedOf, taskMap_updateTask_ne s name (settle o) t h]

theorem runStandaloneTask_of_ok {s : RunnerState V E} {info : TaskInfo V E} {name : String}
    {rm : ResultMap V} {v : V} (h : info.task rm = Except.ok v) :
    runStandaloneTask s info name rm
      = ({ s with invocationLog := s.invocationLog ++ [(name, rm)] }, Except.ok v) := by
  simp [runStandaloneTask, h]

theorem runStandaloneTask_of_error {s : RunnerState V E} {info : TaskInfo V E} {name : String}
    {rm : ResultMap V} {e : E} (h : info.task rm = Except.error e) :
    runStandaloneTask s info name rm
      = ({ s with invocationLog := s.invocationLog ++ [(name, rm)], taskErrorMap := (name, RunErr.body e) :: s.taskErrorMap }, Except.error (RunErr.body e)) := by
  simp [runStandaloneTask, h]

theorem depsOf_persist (s : RunnerState V E) (t : String) :
    depsOf s t = (persistOf s t).map Prod.fst := by
  unfold depsOf persistOf
  cases s.taskMap t <;> rfl

theorem opOf_persist (s : RunnerState V E) (t : String) :
    opOf s t = (persistOf s t).map Prod.snd := by
  unfold opOf persistOf
  cases s.taskMap t <;> rfl

theorem isSome_persist (s : RunnerState V E) (t : String) :
    (s.taskMap t).isSome = (persistOf s t).isSome := by
  unfold persistOf
  cases s.taskMap t <;> rfl

theorem framed_depsOf {s s₂ : RunnerState V E} (h : Framed s s₂) : depsOf s₂ = depsOf s := by
  funext t
  rw [depsOf_persist, depsOf_persist, h.1]

theorem framed_opOf {s s₂ : RunnerState V E} (h : Framed s s₂) : opOf s₂ = opOf s := by
  funext t
  rw [opOf_persist, opOf_persist, h.1]

theorem framed_isSome {s s₂ : RunnerState V E} (h : Framed s s₂) (t : String) :
    (s₂.taskMap t).isSome = (s.taskMap t).isSome := by
  rw [isSome_persist, isSome_persist, h.1]

theorem framed_coherent {s s₂ : RunnerState V E} (h : Framed s s₂) (hc : Coherent s) :
    Coherent s₂ := by
  refine ⟨fun a => ?_, h.2.1 ▸ hc.2⟩
  rw [framed_isSome h a, h.2.1]
  exact hc.1 a

theorem framed_succClosed {s s₂ : RunnerState V E} {C : List String} (h : Framed s s₂)
    (hc : SuccClosed s C) : SuccClosed s₂ C := by
  intro t ht
  rw [framed_depsOf h]
  exact hc t ht

theorem framed_dependsOn {s s₂ : RunnerState V E} (h : Framed s s₂) :
    dependsOn s₂ = dependsOn s := by
  unfold dependsOn
  rw [framed_depsOf h]

theorem framed_reaches {s s₂ : RunnerState V E} (h : Framed s s₂) :
    Reaches s₂ = Reaches s := by
  unfold Reaches
  rw [framed_dependsOn h]

theorem unvisitedCount_congr {s s₂ : RunnerState V E} (hn : s₂.names = s.names)
    (hv : ∀ t, visitedOf s₂ t = visitedOf s t) : unvisitedCount s₂ = unvisitedCount s := by
  unfold unvisitedCount
  rw [hn]
  congr 1
  apply List.filter_congr
  intro t _
  rw [hv t]

theorem filter_length_flip {α : Type} [DecidableEq α] :
    ∀ (l : List α) (p q : α → Bool) (a : α), l.Nodup → a ∈ l → p a = true → q a = false →
      (∀ x, x ≠ a → q x = p x) → (l.filter q).length + 1 = (l.filter p).length := by
  intro l
  induction l with
  | nil => intro p q a _ ha; cases ha
  | cons x rest ih =>
      intro p q a hnd ha hpa hqa hpq
      rcases List.mem_cons.mp ha with hxa | hmem
      · have hpa2 : p x = true := by rw [← hxa]; exact hpa
        have hqa2 : q x = false := by rw [← hxa]; exact hqa
        have hxnotin := (List.nodup_cons.mp hnd).1
        have hrest : ∀ y ∈ rest, q y = p y := by
          intro y hy
          refine hpq y ?_
          intro he
          rw [← hxa] at hxnotin
          exact hxnotin (he ▸ hy)
        simp only [List.filter_cons, hpa2, hqa2]
        rw [List.filter_congr hrest]
        simp
      · have hxne : x ≠ a := by
          intro he
          exact (List.nodup_cons.mp hnd).1 (he ▸ hmem)
        have hq : q x = p x := hpq x hxne
        have hrec := ih p q a (List.nodup_cons.mp hnd).2 hmem hpa hqa hpq
        simp only [List.filter_cons, hq]
        by_cases hpx : p x = true
        · simp only [hpx, if_true, List.length_cons]
          omega
        · simp only [Bool.not_eq_true] at hpx
          simp [hpx]
          omega

theorem unvisitedCount_mark {s : RunnerState V E} {name : String} {i : TaskInfo V E}
    (hcoh : Coherent s) (hm : s.taskMap name = some i) (hv : i.visited = false) :
    unvisitedCount (updateTask s name markVisited) + 1 = unvisitedCount s := by
  have hmem : name ∈ s.names := (hcoh.1 name).mp (by rw [hm]; rfl)
  have hvis : visitedOf s name = false := by simp [visitedOf, hm, hv]
  unfold unvisitedCount
  have hn : (updateTask s name markVisited).names = s.names := rfl
  rw [hn]
  exact filter_length_flip s.names (fun n => !(visitedOf s n))
    (fun n => !(visitedOf (updateTask s name markVisited) n)) name hcoh.2 hmem
    (by show (!(visitedOf s name)) = true; rw [hvis]; rfl)
    (by show (!(visitedOf (updateTask s name markVisited) name)) = false
        rw [visitedOf_mark_self s name i hm]; rfl)
    (by intro x hx
        show (!(visitedOf (updateTask s name markVisited) x)) = (!(visitedOf s x))
        rw [visitedOf_mark_ne s name x hx])

end Helpers


section Master

/-- The run-time invariant maintained by `runTask` at every call boundary of
a run started from a `Clean` state.  Each field is an observation about how
the source manipulates the per-run state: tasks are logged at most once and
only registered ones; a logged task has its promise in flight or is on the
visited stack; the error map holds exactly the body failures of logged tasks;
every stored promise is either the recorded outcome of the task's single
logged invocation or a `Dependency failures` rejection of a task whose body
never ran; a visited task has no settled promise yet; a task settled `ok` has
all its dependencies settled `ok`; every logged ResultMap holds exactly the
direct dependencies with their recorded results; and a settled task's
dependencies have all been attempted unless a cycle was already reported. -/
structure Inv (s : RunnerState V E) : Prop where
  logReg : ∀ p ∈ s.invocationLog, (s.taskMap p.1).isSome = true
  logOnce : (s.invocationLog.map Prod.fst).Nodup
  logPromise : ∀ p ∈ s.invocationLog,
    (promiseOf s p.1).isSome = true ∨ visitedOf s p.1 = true
  errKeys : ∀ t, (s.taskErrorMap.lookup t).isSome = true → ∃ p ∈ s.invocationLog, p.1 = t
  errInv : ∀ p ∈ s.invocationLog, ∀ op e, opOf s p.1 = some op → op p.2 = Except.error e →
    s.taskErrorMap.lookup p.1 = some (RunErr.body e)
  promChar : ∀ t o, promiseOf s t = some o →
    (∃ rm op, opOf s t = some op ∧ (t, rm) ∈ s.invocationLog ∧
      ((∃ v, op rm = Except.ok v ∧ o = Except.ok v) ∨
        (∃ e, op rm = Except.error e ∧ o = Except.error (RunErr.body e)))) ∨
    (∃ fs, o = Except.error (RunErr.depFailures fs) ∧ ∀ rm, (t, rm) ∉ s.invocationLog)
  visPromise : ∀ t, visitedOf s t = true → promiseOf s t = none
  okClosed : ∀ t v, promiseOf s t = some (Except.ok v) → ∀ ds, depsOf s t = some ds →
    ∀ d ∈ ds, ∃ w, promiseOf s d = some (Except.ok w)
  goodLog : ∀ p ∈ s.invocationLog, ∃ ds, depsOf s p.1 = some ds ∧
    (∀ d, ((p.2.lookup d).isSome = true) ↔ d ∈ ds) ∧
    (∀ d v, p.2.lookup d = some v → ∃ op2 rm2, opOf s d = some op2 ∧
      (d, rm2) ∈ s.invocationLog ∧ op2 rm2 = Except.ok v)
  spac : ∀ t, promiseOf s t ≠ none → ∀ ds, depsOf s t = some ds → ∀ d ∈ ds,
    promiseOf s d ≠ none ∨ s.cycleLog ≠ [] ∨ (s.taskMap d).isSome = false

/-- The state of a fixed successor-closed task set `C` (the member set of a
dependency cycle) during a run started from a `Clean` state: no member ever
settles `ok`, no member's operation is ever invoked, and a member settled
with an error implies a cycle rejection has been reported. -/
structure CycInv (s : RunnerState V E) (C : List String) : Prop where
  noOk : ∀ t ∈ C, ∀ v, promiseOf s t ≠ some (Except.ok v)
  logFree : ∀ t ∈ C, ∀ rm, (t, rm) ∉ s.invocationLog
  errCached : ∀ t ∈ C, ∀ o, promiseOf s t = some (Except.error o) → s.cycleLog ≠ []

/-- Everything one `runTask` call guarantees, relating its entry state `s` to
its exit state `s₂` and returned outcome `r`. -/
structure StepOk (s : RunnerState V E) (C : List String) (name : String)
    (s₂ : RunnerState V E) (r : Except (RunErr E) V) : Prop where
  framed : Framed s s₂
  vis : ∀ t, visitedOf s₂ t = visitedOf s t
  logExt : ∃ L, s₂.invocationLog = s.invocationLog ++ L ∧
    ∀ p ∈ L, promiseOf s p.1 = none ∧ visitedOf s p.1 = false
  promMono : ∀ t o, promiseOf s t = some o → promiseOf s₂ t = some o
  cycExt : ∃ L, s₂.cycleLog = s.cycleLog ++ L
  errMono : ∀ t x, s.taskErrorMap.lookup t = some x → s₂.taskErrorMap.lookup t = some x
  retOk : ∀ v, r = Except.ok v → promiseOf s₂ name = some (Except.ok v)
  retLog : ∀ rm, (name, rm) ∈ s₂.invocationLog → (name, rm) ∈ s.invocationLog ∨
    ∃ op, opOf s name = some op ∧
      ((∃ v, op rm = Except.ok v ∧ r = Except.ok v) ∨
        (∃ e, op rm = Except.error e ∧ r = Except.error (RunErr.body e)))
  attempted : promiseOf s₂ name ≠ none ∨ s₂.cycleLog ≠ [] ∨ (s.taskMap name).isSome = false
  inv : Inv s₂
  cyc : CycInv s₂ C
  inC : name ∈ C → (∃ e, r = Except.error e) ∧ s₂.cycleLog ≠ []

/-- Everything `runAllDependentTasks` guarantees for a dependency list `l`. -/
structure DepsOk (s : RunnerState V E) (C : List String) (l : List String)
    (sd : RunnerState V E) (results : ResultMap V) (failed : List String) : Prop where
  framed : Framed s sd
  vis : ∀ t, visitedOf sd t = visitedOf s t
  logExt : ∃ L, sd.invocationLog = s.invocationLog ++ L ∧
    ∀ p ∈ L, promiseOf s p.1 = none ∧ visitedOf s p.1 = false
  promMono : ∀ t o, promiseOf s t = some o → promiseOf sd t = some o
  cycExt : ∃ L, sd.cycleLog = s.cycleLog ++ L
  errMono : ∀ t x, s.taskErrorMap.lookup t = some x → sd.taskErrorMap.lookup t = some x
  inv : Inv sd
  cyc : CycInv sd C
  resMem : ∀ p ∈ results, p.1 ∈ l ∧ promiseOf sd p.1 = some (Except.ok p.2)
  failedMem : ∀ f ∈ failed, f ∈ l
  complete : ∀ d ∈ l, (∃ v, (d, v) ∈ results) ∨ d ∈ failed
  attempted : ∀ d ∈ l, promiseOf sd d ≠ none ∨ sd.cycleLog ≠ [] ∨ (s.taskMap d).isSome = false
  inCdep : ∀ d ∈ l, d ∈ C → d ∈ failed ∧ sd.cycleLog ≠ []

theorem runAll_master (C : List String) (fuel : Nat)
    (hstep : ∀ (s : RunnerState V E) (n : String), Inv s → CycInv s C → Coherent s →
      SuccClosed s C → unvisitedCount s < fuel →
      StepOk s C n (runTask fuel s n).1 (runTask fuel s n).2) :
    ∀ (l : List String) (s : RunnerState V E), Inv s → CycInv s C → Coherent s →
      SuccClosed s C → unvisitedCount s < fuel →
      DepsOk s C l (runAllDependentTasks (runTask fuel) s l).1
        (runAllDependentTasks (runTask fuel) s l).2.1
        (runAllDependentTasks (runTask fuel) s l).2.2 := by
  intro l
  induction l with
  | nil =>
      intro s hinv hcyc hcoh hsc hfuel
      exact {
        framed := framed_refl s
        vis := fun t => rfl
        logExt := ⟨[], (List.append_nil _).symm, by intro p hp; cases hp⟩
        promMono := fun t o h => h
        cycExt := ⟨[], (List.append_nil _).symm⟩
        errMono := fun t x h => h
        inv := hinv
        cyc := hcyc
        resMem := by intro p hp; cases hp
        failedMem := by intro f hf; cases hf
        complete := by intro d hd; cases hd
        attempted := by intro d hd; cases hd
        inCdep := by intro d hd; cases hd }
  | cons name rest ih =>
      intro s hinv hcyc hcoh hsc hfuel
      have hstep1 := hstep s name hinv hcyc hcoh hsc hfuel
      cases hr : runTask fuel s name with
      | mk s₁ r =>
        rw [hr] at hstep1
        have hcoh1 : Coherent s₁ := framed_coherent hstep1.framed hcoh
        have hsc1 : SuccClosed s₁ C := framed_succClosed hstep1.framed hsc
        have hfuel1 : unvisitedCount s₁ < fuel := by
          rw [unvisitedCount_congr hstep1.framed.2.1 hstep1.vis]; exact hfuel
        have hrest := ih s₁ hstep1.inv hstep1.cyc hcoh1 hsc1 hfuel1
        cases hr2 : runAllDependentTasks (runTask fuel) s₁ rest with
        | mk s₂ pr =>
          cases pr with
          | mk results failed =>
            rw [hr2] at hrest
            have hframe : Framed s s₂ := hstep1.framed.trans hrest.framed
            have hvis : ∀ t, visitedOf s₂ t = visitedOf s t :=
              fun t => (hrest.vis t).trans (hstep1.vis t)
            obtain ⟨L1, hL1, hL1p⟩ := hstep1.logExt
            obtain ⟨L2, hL2, hL2p⟩ := hrest.logExt
            have hlog : ∃ L, s₂.invocationLog = s.invocationLog ++ L ∧
                ∀ p ∈ L, promiseOf s p.1 = none ∧ visitedOf s p.1 = false := by
              refine ⟨L1 ++ L2, by rw [hL2, hL1, List.append_assoc], ?_⟩
              intro p hp
              rcases List.mem_append.mp hp with hp1 | hp2
              · exact hL1p p hp1
              · have h2 := hL2p p hp2
                constructor
                · cases hps : promiseOf s p.1 with
                  | none => rfl
                  | some o =>
                      have := hstep1.promMono p.1 o hps
                      rw [h2.1] at this
                      cases this
                · rw [← hstep1.vis p.1]
                  exact h2.2
            have hprom : ∀ t o, promiseOf s t = some o → promiseOf s₂ t = some o :=
              fun t o h => hrest.promMono t o (hstep1.promMono t o h)
            obtain ⟨G1, hG1⟩ := hstep1.cycExt
            obtain ⟨G2, hG2⟩ := hrest.cycExt
            have hcycext : ∃ L, s₂.cycleLog = s.cycleLog ++ L :=
              ⟨G1 ++ G2, by rw [hG2, hG1, List.append_assoc]⟩
            have hcyclift : s₁.cycleLog ≠ [] → s₂.cycleLog ≠ [] := by
              intro h he
              rw [hG2] at he
              exact h (List.append_eq_nil.mp he).1
            have herr : ∀ t x, s.taskErrorMap.lookup t = some x →
                s₂.taskErrorMap.lookup t = some x :=
              fun t x h => hrest.errMono t x (hstep1.errMono t x h)
            have hatthead : promiseOf s₂ name ≠ none ∨ s₂.cycleLog ≠ [] ∨
                (s.taskMap name).isSome = false := by
              rcases hstep1.attempted with h1 | h2 | h3
              · left
                cases hps : promiseOf s₁ name with
                | none => exact absurd hps h1
                | some o =>
                    rw [hrest.promMono name o hps]
                    exact fun he => by cases he
              · right; left; exact hcyclift h2
              · right; right; exact h3
            cases r with
            | ok v =>
                simp only [runAllDependentTasks, hr, hr2]
                have hpromname : promiseOf s₂ name = some (Except.ok v) :=
                  hrest.promMono name _ (hstep1.retOk v rfl)
                exact {
                  framed := hframe
                  vis := hvis
                  logExt := hlog
                  promMono := hprom
                  cycExt := hcycext
                  errMono := herr
                  inv := hrest.inv
                  cyc := hrest.cyc
                  resMem := by
                    intro p hp
                    rcases List.mem_cons.mp hp with he | hm
                    · rw [he]
                      exact ⟨List.mem_cons_self _ _, hpromname⟩
                    · have := hrest.resMem p hm
                      exact ⟨List.mem_cons_of_mem _ this.1, this.2⟩
                  failedMem := fun f hf => List.mem_cons_of_mem _ (hrest.failedMem f hf)
                  complete := by
                    intro d hd
                    rcases List.mem_cons.mp hd with he | hm
                    · left; exact ⟨v, by rw [he]; exact List.mem_cons_self _ _⟩
                    · rcases hrest.complete d hm with ⟨w, hw⟩ | hf
                      · left; exact ⟨w, List.mem_cons_of_mem _ hw⟩
                      · right; exact hf
                  attempted := by
                    intro d hd
                    rcases List.mem_cons.mp hd with he | hm
                    · rw [he]; exact hatthead
                    · rcases hrest.attempted d hm with h1 | h2 | h3
                      · left; exact h1
                      · right; left; exact h2
                      · right; right; rw [← framed_isSome hstep1.framed d]; exact h3
                  inCdep := by
                    intro d hd hdC
                    rcases List.mem_cons.mp hd with he | hm
                    · exfalso
                      obtain ⟨⟨e, he2⟩, _⟩ := hstep1.inC (he ▸ hdC)
                      cases he2
                    · have := hrest.inCdep d hm hdC
                      exact ⟨this.1, this.2⟩ }
            | error e =>
                simp only [runAllDependentTasks, hr, hr2]
                exact {
                  framed := hframe
                  vis := hvis
                  logExt := hlog
                  promMono := hprom
                  cycExt := hcycext
                  errMono := herr
                  inv := hrest.inv
                  cyc := hrest.cyc
                  resMem := by
                    intro p hp
                    have := hrest.resMem p hp
                    exact ⟨List.mem_cons_of_mem _ this.1, this.2⟩
                  failedMem := by
                    intro f hf
                    rcases List.mem_cons.mp hf with he | hm
                    · rw [he]; exact List.mem_cons_self _ _
                    · exact List.mem_cons_of_mem _ (hrest.failedMem f hm)
                  complete := by
                    intro d hd
                    rcases List.mem_cons.mp hd with he | hm
                    · right; rw [he]; exact List.mem_cons_self _ _
                    · rcases hrest.complete d hm with ⟨w, hw⟩ | hf
                      · left; exact ⟨w, hw⟩
                      · right; exact List.mem_cons_of_mem _ hf
                  attempted := by
                    intro d hd
                    rcases List.mem_cons.mp hd with he | hm
                    · rw [he]; exact hatthead
                    · rcases hrest.attempted d hm with h1 | h2 | h3
                      · left; exact h1
                      · right; left; exact h2
                      · right; right; rw [← framed_isSome hstep1.framed d]; exact h3
                  inCdep := by
                    intro d hd hdC
                    rcases List.mem_cons.mp hd with he | hm
                    · refine ⟨by rw [he]; exact List.mem_cons_self _ _, ?_⟩
                      exact hcyclift (hstep1.inC (he ▸ hdC)).2
                    · have := hrest.inCdep d hm hdC
                      exact ⟨List.mem_cons_of_mem _ this.1, this.2⟩ }


theorem runTaskBody_spec (step : RunnerState V E → String → RunnerState V E × Except (RunErr E) V)
    (s₁ : RunnerState V E) (info : TaskInfo V E) (name : String)
    {s₂ : RunnerState V E} {outcome : Except (RunErr E) V}
    (h : runTaskBody step s₁ info name = (s₂, outcome)) :
    (info.dependencies = [] ∧ runStandaloneTask s₁ info name [] = (s₂, outcome)) ∨
    (∃ d rest sd results, info.dependencies = d :: rest ∧
      runAllDependentTasks step s₁ (d :: rest) = (sd, results, []) ∧
      runStandaloneTask sd info name results = (s₂, outcome)) ∨
    (∃ d rest results f fs, info.dependencies = d :: rest ∧
      runAllDependentTasks step s₁ (d :: rest) = (s₂, results, f :: fs) ∧
      outcome = Except.error (RunErr.depFailures (f :: fs))) := by
  unfold runTaskBody at h
  split at h
  · next hdeps => exact Or.inl ⟨hdeps, h⟩
  · next d rest hdeps =>
      split at h
      · next sd results heq =>
          exact Or.inr (Or.inl ⟨d, rest, sd, results, hdeps, heq, h⟩)
      · next sd results f fs heq =>
          cases h
          exact Or.inr (Or.inr ⟨d, rest, results, f, fs, hdeps, heq, rfl⟩)

theorem notLogged_of_fresh {s : RunnerState V E} {name : String} {info : TaskInfo V E}
    (hinv : Inv s) (hm : s.taskMap name = some info) (hv2 : info.visited = false)
    (hp : info.promise = none) : ∀ rm, (name, rm) ∉ s.invocationLog := by
  intro rm hmem
  rcases hinv.logPromise (name, rm) hmem with h | h
  · have hpn : promiseOf s name = none := by simp [promiseOf, hm, hp]
    rw [hpn] at h
    cases h
  · have hvn : visitedOf s name = false := by simp [visitedOf, hm, hv2]
    rw [hvn] at h
    cases h


theorem cycinv_of_eq {s₂ sd : RunnerState V E} {C : List String} (hcycd : CycInv sd C)
    (hpr : ∀ t, promiseOf s₂ t = promiseOf sd t)
    (hlog : ∀ p ∈ s₂.invocationLog, p ∈ sd.invocationLog ∨ p.1 ∉ C)
    (hcl : s₂.cycleLog = sd.cycleLog) : CycInv s₂ C := by
  refine ⟨?_, ?_, ?_⟩
  · intro t ht v
    rw [hpr t]
    exact hcycd.noOk t ht v
  · intro t ht rm hmem
    rcases hlog (t, rm) hmem with h1 | h2
    · exact hcycd.logFree t ht rm h1
    · exact h2 ht
  · intro t ht o hpo
    rw [hpr t] at hpo
    rw [hcl]
    exact hcycd.errCached t ht o hpo

theorem inv_invoke_ok (sd : RunnerState V E) (name : String) (results : ResultMap V)
    (op : ResultMap V → Except E V) (v : V)
    (hinvd : Inv sd) (hreg : (sd.taskMap name).isSome = true)
    (hop : opOf sd name = some op) (hok : op results = Except.ok v)
    (hvis : visitedOf sd name = true)
    (hnotlog : ∀ rm, (name, rm) ∉ sd.invocationLog)
    (hkeys : ∃ ds, depsOf sd name = some ds ∧ (∀ d, ((results.lookup d).isSome = true) ↔ d ∈ ds))
    (htrace : ∀ d w, results.lookup d = some w → ∃ op2 rm2, opOf sd d = some op2 ∧
      (d, rm2) ∈ sd.invocationLog ∧ op2 rm2 = Except.ok w) :
    Inv ({ sd with invocationLog := sd.invocationLog ++ [(name, results)] } : RunnerState V E) := by
  have hnotmap : name ∉ sd.invocationLog.map Prod.fst := by
    intro hmem
    obtain ⟨p, hp, hp1⟩ := List.mem_map.mp hmem
    exact hnotlog p.2 (by rw [← hp1]; exact hp)
  refine ⟨?_, ?_, ?_, ?_, ?_, ?_, ?_, ?_, ?_, ?_⟩
  · intro p hp
    rcases List.mem_append.mp hp with h1 | h2
    · exact hinvd.logReg p h1
    · rw [List.mem_singleton.mp h2]
      exact hreg
  · show ((sd.invocationLog ++ [(name, results)]).map Prod.fst).Nodup
    rw [List.map_append]
    exact nodup_append_singleton _ _ hinvd.logOnce hnotmap
  · intro p hp
    rcases List.mem_append.mp hp with h1 | h2
    · exact hinvd.logPromise p h1
    · rw [List.mem_singleton.mp h2]
      right
      exact hvis
  · intro t ht
    obtain ⟨p, hp, hp1⟩ := hinvd.errKeys t ht
    exact ⟨p, List.mem_append_left _ hp, hp1⟩
  · intro p hp op2 e hop2 herr2
    rcases List.mem_append.mp hp with h1 | h2
    · exact hinvd.errInv p h1 op2 e hop2 herr2
    · exfalso
      rw [List.mem_singleton.mp h2] at hop2 herr2
      have hop3 : opOf sd name = some op2 := hop2
      rw [hop] at hop3
      cases hop3
      have herr3 : op results = Except.error e := herr2
      rw [hok] at herr3
      cases herr3
  · intro t o hpo
    rcases hinvd.promChar t o hpo with ⟨rm2, op2, hop2, hm2, hc⟩ | ⟨fs, hfs, hnl⟩
    · exact Or.inl ⟨rm2, op2, hop2, List.mem_append_left _ hm2, hc⟩
    · refine Or.inr ⟨fs, hfs, ?_⟩
      intro rm hmem
      rcases List.mem_append.mp hmem with h1 | h2
      · exact hnl rm h1
      · have h3 := List.mem_singleton.mp h2
        have htn : t = name := congrArg Prod.fst h3
        rw [htn] at hpo
        have hpo2 : promiseOf sd name = some o := hpo
        rw [hinvd.visPromise name hvis] at hpo2
        cases hpo2
  · intro t hvt
    exact hinvd.visPromise t hvt
  · intro t w hpt ds hds d hd
    exact hinvd.okClosed t w hpt ds hds d hd
  · intro p hp
    rcases List.mem_append.mp hp with h1 | h2
    · obtain ⟨ds, hds, hkeys2, htr2⟩ := hinvd.goodLog p h1
      refine ⟨ds, hds, hkeys2, ?_⟩
      intro d w hw
      obtain ⟨op2, rm2, hop2, hm2, hok2⟩ := htr2 d w hw
      exact ⟨op2, rm2, hop2, List.mem_append_left _ hm2, hok2⟩
    · rw [List.mem_singleton.mp h2]
      obtain ⟨ds, hds, hkeys2⟩ := hkeys
      refine ⟨ds, hds, hkeys2, ?_⟩
      intro d w hw
      obtain ⟨op2, rm2, hop2, hm2, hok2⟩ := htrace d w hw
      exact ⟨op2, rm2, hop2, List.mem_append_left _ hm2, hok2⟩
  · intro t hpt ds hds d hd
    exact hinvd.spac t hpt ds hds d hd

theorem inv_invoke_error (sd : RunnerState V E) (name : String) (results : ResultMap V)
    (op : ResultMap V → Except E V) (e : E)
    (hinvd : Inv sd) (hreg : (sd.taskMap name).isSome = true)
    (hop : opOf sd name = some op) (herr : op results = Except.error e)
    (hvis : visitedOf sd name = true)
    (hnotlog : ∀ rm, (name, rm) ∉ sd.invocationLog)
    (hkeys : ∃ ds, depsOf sd name = some ds ∧ (∀ d, ((results.lookup d).isSome = true) ↔ d ∈ ds))
    (htrace : ∀ d w, results.lookup d = some w → ∃ op2 rm2, opOf sd d = some op2 ∧
      (d, rm2) ∈ sd.invocationLog ∧ op2 rm2 = Except.ok w) :
    Inv ({ sd with invocationLog := sd.invocationLog ++ [(name, results)], taskErrorMap := (name, RunErr.body e) :: sd.taskErrorMap } : RunnerState V E) := by
  have hnotmap : name ∉ sd.invocationLog.map Prod.fst := by
    intro hmem
    obtain ⟨p, hp, hp1⟩ := List.mem_map.mp hmem
    exact hnotlog p.2 (by rw [← hp1]; exact hp)
  have herrname : (sd.taskErrorMap.lookup name).isSome = false := by
    cases hlk : (sd.taskErrorMap.lookup name).isSome with
    | false => rfl
    | true =>
        obtain ⟨p, hp, hp1⟩ := hinvd.errKeys name hlk
        exact absurd (by rw [← hp1]; exact hp) (hnotlog p.2)
  refine ⟨?_, ?_, ?_, ?_, ?_, ?_, ?_, ?_, ?_, ?_⟩
  · intro p hp
    rcases List.mem_append.mp hp with h1 | h2
    · exact hinvd.logReg p h1
    · rw [List.mem_singleton.mp h2]
      exact hreg
  · show ((sd.invocationLog ++ [(name, results)]).map Prod.fst).Nodup
    rw [List.map_append]
    exact nodup_append_singleton _ _ hinvd.logOnce hnotmap
  · intro p hp
    rcases List.mem_append.mp hp with h1 | h2
    · exact hinvd.logPromise p h1
    · rw [List.mem_singleton.mp h2]
      right
      exact hvis
  · intro t ht
    by_cases htn : t = name
    · exact ⟨(name, results), List.mem_append_right _ (List.mem_singleton_self _), htn.symm⟩
    · have ht2 : (((name, RunErr.body e) :: sd.taskErrorMap).lookup t).isSome = true := ht
      rw [lookup_cons_ne _ _ htn] at ht2
      obtain ⟨p, hp, hp1⟩ := hinvd.errKeys t ht2
      exact ⟨p, List.mem_append_left _ hp, hp1⟩
  · intro p hp op2 e2 hop2 herr2
    rcases List.mem_append.mp hp with h1 | h2
    · have hne : p.1 ≠ name := by
        intro he
        exact hnotlog p.2 (by rw [← he]; exact h1)
      show ((name, RunErr.body e) :: sd.taskErrorMap).lookup p.1 = some (RunErr.body e2)
      rw [lookup_cons_ne _ _ hne]
      exact hinvd.errInv p h1 op2 e2 hop2 herr2
    · rw [List.mem_singleton.mp h2] at hop2 herr2 ⊢
      show ((name, RunErr.body e) :: sd.taskErrorMap).lookup name = some (RunErr.body e2)
      have hop3 : opOf sd name = some op2 := hop2
      rw [hop] at hop3
      cases hop3
      have herr3 : op results = Except.error e2 := herr2
      rw [herr] at herr3
      cases herr3
      exact lookup_cons_self name (RunErr.body e) sd.taskErrorMap
  · intro t o hpo
    rcases hinvd.promChar t o hpo with ⟨rm2, op2, hop2, hm2, hc⟩ | ⟨fs, hfs, hnl⟩
    · exact Or.inl ⟨rm2, op2, hop2, List.mem_append_left _ hm2, hc⟩
    · refine Or.inr ⟨fs, hfs, ?_⟩
      intro rm hmem
      rcases List.mem_append.mp hmem with h1 | h2
      · exact hnl rm h1
      · have h3 := List.mem_singleton.mp h2
        have htn : t = name := congrArg Prod.fst h3
        rw [htn] at hpo
        have hpo2 : promiseOf sd name = some o := hpo
        rw [hinvd.visPromise name hvis] at hpo2
        cases hpo2
  · intro t hvt
    exact hinvd.visPromise t hvt
  · intro t w hpt ds hds d hd
    exact hinvd.okClosed t w hpt ds hds d hd
  · intro p hp
    rcases List.mem_append.mp hp with h1 | h2
    · obtain ⟨ds, hds, hkeys2, htr2⟩ := hinvd.goodLog p h1
      refine ⟨ds, hds, hkeys2, ?_⟩
      intro d w hw
      obtain ⟨op2, rm2, hop2, hm2, hok2⟩ := htr2 d w hw
      exact ⟨op2, rm2, hop2, List.mem_append_left _ hm2, hok2⟩
    · rw [List.mem_singleton.mp h2]
      obtain ⟨ds, hds, hkeys2⟩ := hkeys
      refine ⟨ds, hds, hkeys2, ?_⟩
      intro d w hw
      obtain ⟨op2, rm2, hop2, hm2, hok2⟩ := htrace d w hw
      exact ⟨op2, rm2, hop2, List.mem_append_left _ hm2, hok2⟩
  · intro t hpt ds hds d hd
    exact hinvd.spac t hpt ds hds d hd


theorem inv_settle (s₂ : RunnerState V E) (name : String) (outcome : Except (RunErr E) V)
    (j : TaskInfo V E) (hj : s₂.taskMap name = some j)
    (hinv2 : Inv s₂)
    (hprom2 : promiseOf s₂ name = none)
    (hchar : (∃ rm op, opOf s₂ name = some op ∧ (name, rm) ∈ s₂.invocationLog ∧
        ((∃ v, op rm = Except.ok v ∧ outcome = Except.ok v) ∨
          (∃ e, op rm = Except.error e ∧ outcome = Except.error (RunErr.body e)))) ∨
      (∃ fs, outcome = Except.error (RunErr.depFailures fs) ∧ ∀ rm, (name, rm) ∉ s₂.invocationLog))
    (hokdeps : ∀ v, outcome = Except.ok v → ∀ ds, depsOf s₂ name = some ds →
        ∀ d ∈ ds, ∃ w, promiseOf s₂ d = some (Except.ok w))
    (hspac : ∀ ds, depsOf s₂ name = some ds → ∀ d ∈ ds,
        promiseOf s₂ d ≠ none ∨ s₂.cycleLog ≠ [] ∨ (s₂.taskMap d).isSome = false) :
    Inv (updateTask s₂ name (settle outcome)) := by
  have framed3 : Framed s₂ (updateTask s₂ name (settle outcome)) :=
    framed_updateTask s₂ name (settle outcome) (settle_persist outcome)
  have hpr3self : promiseOf (updateTask s₂ name (settle outcome)) name = some outcome :=
    promiseOf_settle_self s₂ name outcome j hj
  have hpr3ne : ∀ t, t ≠ name →
      promiseOf (updateTask s₂ name (settle outcome)) t = promiseOf s₂ t :=
    fun t ht => promiseOf_settle_ne s₂ name outcome t ht
  have hv3self : visitedOf (updateTask s₂ name (settle outcome)) name = false :=
    visitedOf_settle_self s₂ name outcome j hj
  have hv3ne : ∀ t, t ≠ name →
      visitedOf (updateTask s₂ name (settle outcome)) t = visitedOf s₂ t :=
    fun t ht => visitedOf_settle_ne s₂ name outcome t ht
  have hliftprom : ∀ d w, promiseOf s₂ d = some (Except.ok w) →
      promiseOf (updateTask s₂ name (settle outcome)) d = some (Except.ok w) := by
    intro d w hw
    by_cases hdn : d = name
    · rw [hdn] at hw
      rw [hprom2] at hw
      cases hw
    · rw [hpr3ne d hdn]
      exact hw
  have htrans : ∀ d, promiseOf s₂ d ≠ none ∨ s₂.cycleLog ≠ [] ∨ (s₂.taskMap d).isSome = false →
      promiseOf (updateTask s₂ name (settle outcome)) d ≠ none ∨
        (updateTask s₂ name (settle outcome)).cycleLog ≠ [] ∨
        ((updateTask s₂ name (settle outcome)).taskMap d).isSome = false := by
    intro d hcase
    by_cases hdn : d = name
    · left
      rw [hdn, hpr3self]
      exact fun h => by cases h
    · rcases hcase with h1 | h2 | h3
      · left
        rw [hpr3ne d hdn]
        exact h1
      · right; left
        exact h2
      · right; right
        rw [framed_isSome framed3 d]
        exact h3
  refine ⟨?_, ?_, ?_, ?_, ?_, ?_, ?_, ?_, ?_, ?_⟩
  · intro p hp
    rw [framed_isSome framed3 p.1]
    exact hinv2.logReg p hp
  · exact hinv2.logOnce
  · intro p hp
    by_cases hpn : p.1 = name
    · left
      rw [hpn, hpr3self]
      rfl
    · rcases hinv2.logPromise p hp with h1 | h2
      · left
        rw [hpr3ne p.1 hpn]
        exact h1
      · right
        rw [hv3ne p.1 hpn]
        exact h2
  · exact hinv2.errKeys
  · intro p hp op e hop herr
    have hop2 : opOf s₂ p.1 = some op := by rw [← framed_opOf framed3]; exact hop
    exact hinv2.errInv p hp op e hop2 herr
  · intro t o hpo
    by_cases htn : t = name
    · subst htn
      rw [hpr3self] at hpo
      cases hpo
      rcases hchar with ⟨rm, op, hop, hmem, hc⟩ | ⟨fs, hfs, hnl⟩
      · refine Or.inl ⟨rm, op, ?_, hmem, hc⟩
        rw [framed_opOf framed3]
        exact hop
      · exact Or.inr ⟨fs, hfs, hnl⟩
    · rw [hpr3ne t htn] at hpo
      rcases hinv2.promChar t o hpo with ⟨rm, op, hop, hmem, hc⟩ | ⟨fs, hfs, hnl⟩
      · refine Or.inl ⟨rm, op, ?_, hmem, hc⟩
        rw [framed_opOf framed3]
        exact hop
      · exact Or.inr ⟨fs, hfs, hnl⟩
  · intro t hvt
    by_cases htn : t = name
    · rw [htn, hv3self] at hvt
      cases hvt
    · rw [hv3ne t htn] at hvt
      rw [hpr3ne t htn]
      exact hinv2.visPromise t hvt
  · intro t w hpt ds hds d hd
    have hds2 : depsOf s₂ t = some ds := by rw [← framed_depsOf framed3]; exact hds
    by_cases htn : t = name
    · rw [htn, hpr3self] at hpt
      have houtcome : outcome = Except.ok w := Option.some.inj hpt
      rw [htn] at hds2
      obtain ⟨w2, hw2⟩ := hokdeps w houtcome ds hds2 d hd
      exact ⟨w2, hliftprom d w2 hw2⟩
    · rw [hpr3ne t htn] at hpt
      obtain ⟨w2, hw2⟩ := hinv2.okClosed t w hpt ds hds2 d hd
      exact ⟨w2, hliftprom d w2 hw2⟩
  · intro p hp
    obtain ⟨ds, hds, hkeys2, htr⟩ := hinv2.goodLog p hp
    refine ⟨ds, by rw [framed_depsOf framed3]; exact hds, hkeys2, ?_⟩
    intro d w hw
    obtain ⟨op2, rm2, hop2, hm2, hok2⟩ := htr d w hw
    exact ⟨op2, rm2, by rw [framed_opOf framed3]; exact hop2, hm2, hok2⟩
  · intro t hpt ds hds d hd
    have hds2 : depsOf s₂ t = some ds := by rw [← framed_depsOf framed3]; exact hds
    by_cases htn : t = name
    · rw [htn] at hds2
      exact htrans d (hspac ds hds2 d hd)
    · rw [hpr3ne t htn] at hpt
      exact htrans d (hinv2.spac t hpt ds hds2 d hd)

theorem cycinv_settle (s₂ : RunnerState V E) (name : String) (outcome : Except (RunErr E) V)
    (C : List String) (j : TaskInfo V E) (hj : s₂.taskMap name = some j)
    (hcyc2 : CycInv s₂ C)
    (hInC : name ∈ C → (∀ v, outcome ≠ Except.ok v) ∧ s₂.cycleLog ≠ []) :
    CycInv (updateTask s₂ name (settle outcome)) C := by
  have hpr3self : promiseOf (updateTask s₂ name (settle outcome)) name = some outcome :=
    promiseOf_settle_self s₂ name outcome j hj
  have hpr3ne : ∀ t, t ≠ name →
      promiseOf (updateTask s₂ name (settle outcome)) t = promiseOf s₂ t :=
    fun t ht => promiseOf_settle_ne s₂ name outcome t ht
  refine ⟨?_, ?_, ?_⟩
  · intro t ht v
    by_cases htn : t = name
    · rw [htn, hpr3self]
      intro heq
      injection heq with h
      exact (hInC (htn ▸ ht)).1 v h
    · rw [hpr3ne t htn]
      exact hcyc2.noOk t ht v
  · intro t ht rm hmem
    exact hcyc2.logFree t ht rm hmem
  · intro t ht o hpo
    show s₂.cycleLog ≠ []
    by_cases htn : t = name
    · exact (hInC (htn ▸ ht)).2
    · rw [hpr3ne t htn] at hpo
      exact hcyc2.errCached t ht o hpo


theorem stepok_of_standalone (C : List String) (s : RunnerState V E) (name : String)
    (info : TaskInfo V E) (l : List String) (sd : RunnerState V E) (results : ResultMap V)
    (s₂ : RunnerState V E) (outcome : Except (RunErr E) V)
    (hm : s.taskMap name = some info) (hv2 : info.visited = false) (hp : info.promise = none)
    (hinv : Inv s) (hsc : SuccClosed s C)
    (hdepsEq : info.dependencies = l)
    (hdeps : DepsOk (updateTask s name markVisited) C l sd results [])
    (hstand : runStandaloneTask sd info name results = (s₂, outcome)) :
    StepOk s C name (updateTask s₂ name (settle outcome)) outcome := by
  have hframe1 : Framed s (updateTask s name markVisited) :=
    framed_updateTask s name markVisited markVisited_persist
  have hpr1 : ∀ t, promiseOf (updateTask s name markVisited) t = promiseOf s t :=
    promiseOf_mark s name
  have hv1self : visitedOf (updateTask s name markVisited) name = true :=
    visitedOf_mark_self s name info hm
  have hv1ne : ∀ t, t ≠ name → visitedOf (updateTask s name markVisited) t = visitedOf s t :=
    fun t ht => visitedOf_mark_ne s name t ht
  have hpsn : promiseOf s name = none := by simp [promiseOf, hm, hp]
  have hvsn : visitedOf s name = false := by simp [visitedOf, hm, hv2]
  have hframe_sd : Framed s sd := hframe1.trans hdeps.framed
  have hvissd_name : visitedOf sd name = true := by rw [hdeps.vis name]; exact hv1self
  have hvissd : ∀ t, t ≠ name → visitedOf sd t = visitedOf s t := by
    intro t ht
    rw [hdeps.vis t]
    exact hv1ne t ht
  have hpromsd_name : promiseOf sd name = none := hdeps.inv.visPromise name hvissd_name
  have hsdreg : (sd.taskMap name).isSome = true := by
    rw [framed_isSome hframe_sd name, hm]
    rfl
  have hops : opOf s name = some info.task := by simp [opOf, hm]
  have hopsd : opOf sd name = some info.task := by rw [framed_opOf hframe_sd]; exact hops
  have hdepss : depsOf s name = some l := by simp [depsOf, hm, hdepsEq]
  have hdepssd : depsOf sd name = some l := by rw [framed_depsOf hframe_sd]; exact hdepss
  obtain ⟨L, hL, hLp⟩ := hdeps.logExt
  have hnotlog_s : ∀ rm, (name, rm) ∉ s.invocationLog := notLogged_of_fresh hinv hm hv2 hp
  have hnotlog_L : ∀ p ∈ L, p.1 ≠ name := by
    intro p hpL he
    have h2 := (hLp p hpL).2
    rw [he, hv1self] at h2
    cases h2
  have hlogsd : sd.invocationLog = s.invocationLog ++ L := hL
  have hnotlog_sd : ∀ rm, (name, rm) ∉ sd.invocationLog := by
    intro rm hmem
    rw [hlogsd] at hmem
    rcases List.mem_append.mp hmem with h1 | h2
    · exact hnotlog_s rm h1
    · exact hnotlog_L (name, rm) h2 rfl
  have hnameC : name ∉ C := by
    intro hnC
    obtain ⟨ds, hds, d, hd, hdC⟩ := hsc name hnC
    rw [hdepss] at hds
    cases hds
    exact absurd (hdeps.inCdep d hd hdC).1 (List.not_mem_nil d)
  have hkeys : ∀ d, ((results.lookup d).isSome = true) ↔ d ∈ l := by
    intro d
    constructor
    · intro hsome
      obtain ⟨w, hw⟩ := (lookup_isSome_iff results d).mp hsome
      exact (hdeps.resMem (d, w) hw).1
    · intro hdl
      rcases hdeps.complete d hdl with ⟨w, hw⟩ | hf
      · exact mem_lookup_isSome hw
      · exact absurd hf (List.not_mem_nil d)
  have htrace : ∀ d w, results.lookup d = some w → ∃ op2 rm2, opOf sd d = some op2 ∧
      (d, rm2) ∈ sd.invocationLog ∧ op2 rm2 = Except.ok w := by
    intro d w hw
    have hmemr := lookup_mem hw
    have hpd := (hdeps.resMem (d, w) hmemr).2
    rcases hdeps.inv.promChar d _ hpd with ⟨rm2, op2, hop2, hm2, hc⟩ | ⟨fs, hfs, hnl⟩
    · rcases hc with ⟨w2, hw2, hw2o⟩ | ⟨e2, he2, he2o⟩
      · have hww : w = w2 := Except.ok.inj hw2o
        rw [← hww] at hw2
        exact ⟨op2, rm2, hop2, hm2, hw2⟩
      · cases he2o
    · cases hfs
  obtain ⟨G, hG⟩ := hdeps.cycExt
  have hcycsd : sd.cycleLog = s.cycleLog ++ G := hG
  have hokdeps_sd : ∀ d ∈ l, ∃ w, promiseOf sd d = some (Except.ok w) := by
    intro d hdl
    rcases hdeps.complete d hdl with ⟨w, hw⟩ | hf
    · exact ⟨w, (hdeps.resMem (d, w) hw).2⟩
    · exact absurd hf (List.not_mem_nil d)
  have hspac_sd : ∀ ds, depsOf sd name = some ds → ∀ d ∈ ds,
      promiseOf sd d ≠ none ∨ sd.cycleLog ≠ [] ∨ (sd.taskMap d).isSome = false := by
    intro ds hds d hd
    rw [hdepssd] at hds
    cases hds
    rcases hdeps.attempted d hd with h1 | h2 | h3
    · exact Or.inl h1
    · exact Or.inr (Or.inl h2)
    · refine Or.inr (Or.inr ?_)
      rw [framed_isSome hdeps.framed d]
      exact h3
  obtain ⟨j, hj⟩ := Option.isSome_iff_exists.mp hsdreg
  cases hok : info.task results with
  | ok v =>
      rw [runStandaloneTask_of_ok hok] at hstand
      injection hstand with hs2eq houteq
      subst hs2eq
      subst houteq
      have hj2 : ({ sd with invocationLog := sd.invocationLog ++ [(name, results)] } : RunnerState V E).taskMap name = some j := hj
      have hinv2 : Inv ({ sd with invocationLog := sd.invocationLog ++ [(name, results)] } : RunnerState V E) :=
        inv_invoke_ok sd name results info.task v hdeps.inv hsdreg hopsd hok hvissd_name
          hnotlog_sd ⟨l, hdepssd, hkeys⟩ htrace
      have hcyc2 : CycInv ({ sd with invocationLog := sd.invocationLog ++ [(name, results)] } : RunnerState V E) C := by
        refine cycinv_of_eq hdeps.cyc (fun t => rfl) ?_ rfl
        intro p hp
        rcases List.mem_append.mp hp with h1 | h2
        · exact Or.inl h1
        · right
          rw [List.mem_singleton.mp h2]
          exact hnameC
      have hinv3 : Inv (updateTask ({ sd with invocationLog := sd.invocationLog ++ [(name, results)] } : RunnerState V E) name (settle (Except.ok v))) := by
        refine inv_settle _ name (Except.ok v) j hj2 hinv2 hpromsd_name ?_ ?_ ?_
        · exact Or.inl ⟨results, info.task, hopsd,
            List.mem_append_right _ (List.mem_singleton_self _), Or.inl ⟨v, hok, rfl⟩⟩
        · intro w hw ds hds d hd
          have hds2 : depsOf sd name = some ds := hds
          rw [hdepssd] at hds2
          cases hds2
          exact hokdeps_sd d hd
        · intro ds hds d hd
          exact hspac_sd ds hds d hd
      have hcyc3 : CycInv (updateTask ({ sd with invocationLog := sd.invocationLog ++ [(name, results)] } : RunnerState V E) name (settle (Except.ok v))) C :=
        cycinv_settle _ name (Except.ok v) C j hj2 hcyc2 (fun hnC => absurd hnC hnameC)
      have hframe3 : Framed sd (updateTask ({ sd with invocationLog := sd.invocationLog ++ [(name, results)] } : RunnerState V E) name (settle (Except.ok v))) :=
        Framed.trans (⟨rfl, rfl, rfl⟩ : Framed sd _)
          (framed_updateTask _ name (settle (Except.ok v)) (settle_persist _))
      refine {
        framed := hframe_sd.trans hframe3
        vis := ?_
        logExt := ?_
        promMono := ?_
        cycExt := ⟨G, hcycsd⟩
        errMono := ?_
        retOk := ?_
        retLog := ?_
        attempted := ?_
        inv := hinv3
        cyc := hcyc3
        inC := fun hnC => absurd hnC hnameC }
      · intro t
        by_cases htn : t = name
        · subst htn
          rw [visitedOf_settle_self _ t (Except.ok v) j hj2, hvsn]
        · rw [visitedOf_settle_ne _ name (Except.ok v) t htn]
          exact hvissd t htn
      · refine ⟨L ++ [(name, results)], ?_, ?_⟩
        · show sd.invocationLog ++ [(name, results)] = s.invocationLog ++ (L ++ [(name, results)])
          rw [hlogsd, List.append_assoc]
        · intro p hp
          rcases List.mem_append.mp hp with h1 | h2
          · have hLn := hnotlog_L p h1
            refine ⟨?_, ?_⟩
            · have h3 := (hLp p h1).1
              rw [hpr1 p.1] at h3
              exact h3
            · have h3 := (hLp p h1).2
              rw [hv1ne p.1 hLn] at h3
              exact h3
          · rw [List.mem_singleton.mp h2]
            exact ⟨hpsn, hvsn⟩
      · intro t o ho
        have htn : t ≠ name := by
          intro he
          rw [he, hpsn] at ho
          cases ho
        rw [promiseOf_settle_ne _ name (Except.ok v) t htn]
        show promiseOf sd t = some o
        refine hdeps.promMono t o ?_
        rw [hpr1 t]
        exact ho
      · intro t x hx
        show ((updateTask _ name (settle (Except.ok v))).taskErrorMap).lookup t = some x
        rw [err_updateTask]
        exact hdeps.errMono t x hx
      · intro w hw
        injection hw with hw2
        rw [← hw2]
        exact promiseOf_settle_self _ name (Except.ok v) j hj2
      · intro rm hmem
        have hmem2 : (name, rm) ∈ sd.invocationLog ++ [(name, results)] := hmem
        rcases List.mem_append.mp hmem2 with h1 | h2
        · rw [hlogsd] at h1
          rcases List.mem_append.mp h1 with h3 | h4
          · exact Or.inl h3
          · exact absurd rfl (hnotlog_L (name, rm) h4)
        · have h3 := List.mem_singleton.mp h2
          have hrm : rm = results := congrArg Prod.snd h3
          refine Or.inr ⟨info.task, hops, Or.inl ⟨v, ?_, rfl⟩⟩
          rw [hrm]
          exact hok
      · left
        rw [promiseOf_settle_self _ name (Except.ok v) j hj2]
        exact fun h => by cases h
  | error e =>
      rw [runStandaloneTask_of_error hok] at hstand
      injection hstand with hs2eq houteq
      subst hs2eq
      subst houteq
      have hj2 : ({ sd with invocationLog := sd.invocationLog ++ [(name, results)], taskErrorMap := (name, RunErr.body e) :: sd.taskErrorMap } : RunnerState V E).taskMap name = some j := hj
      have hinv2 : Inv ({ sd with invocationLog := sd.invocationLog ++ [(name, results)], taskErrorMap := (name, RunErr.body e) :: sd.taskErrorMap } : RunnerState V E) :=
        inv_invoke_error sd name results info.task e hdeps.inv hsdreg hopsd hok hvissd_name
          hnotlog_sd ⟨l, hdepssd, hkeys⟩ htrace
      have hcyc2 : CycInv ({ sd with invocationLog := sd.invocationLog ++ [(name, results)], taskErrorMap := (name, RunErr.body e) :: sd.taskErrorMap } : RunnerState V E) C := by
        refine cycinv_of_eq hdeps.cyc (fun t => rfl) ?_ rfl
        intro p hp
        have hp2 : p ∈ sd.invocationLog ++ [(name, results)] := hp
        rcases List.mem_append.mp hp2 with h1 | h2
        · exact Or.inl h1
        · right
          rw [List.mem_singleton.mp h2]
          exact hnameC
      have hinv3 : Inv (updateTask ({ sd with invocationLog := sd.invocationLog ++ [(name, results)], taskErrorMap := (name, RunErr.body e) :: sd.taskErrorMap } : RunnerState V E) name (settle (Except.error (RunErr.body e)))) := by
        refine inv_settle _ name (Except.error (RunErr.body e)) j hj2 hinv2 hpromsd_name ?_ ?_ ?_
        · exact Or.inl ⟨results, info.task, hopsd,
            List.mem_append_right _ (List.mem_singleton_self _), Or.inr ⟨e, hok, rfl⟩⟩
        · intro w hw
          cases hw
        · intro ds hds d hd
          exact hspac_sd ds hds d hd
      have hcyc3 : CycInv (updateTask ({ sd with invocationLog := sd.invocationLog ++ [(name, results)], taskErrorMap := (name, RunErr.body e) :: sd.taskErrorMap } : RunnerState V E) name (settle (Except.error (RunErr.body e)))) C :=
        cycinv_settle _ name (Except.error (RunErr.body e)) C j hj2 hcyc2
          (fun hnC => absurd hnC hnameC)
      have hframe3 : Framed sd (updateTask ({ sd with invocationLog := sd.invocationLog ++ [(name, results)], taskErrorMap := (name, RunErr.body e) :: sd.taskErrorMap } : RunnerState V E) name (settle (Except.error (RunErr.body e)))) :=
        Framed.trans (⟨rfl, rfl, rfl⟩ : Framed sd _)
          (framed_updateTask _ name (settle (Except.error (RunErr.body e))) (settle_persist _))
      refine {
        framed := hframe_sd.trans hframe3
        vis := ?_
        logExt := ?_
        promMono := ?_
        cycExt := ⟨G, hcycsd⟩
        errMono := ?_
        retOk := ?_
        retLog := ?_
        attempted := ?_
        inv := hinv3
        cyc := hcyc3
        inC := fun hnC => absurd hnC hnameC }
      · intro t
        by_cases htn : t = name
        · subst htn
          rw [visitedOf_settle_self _ t (Except.error (RunErr.body e)) j hj2, hvsn]
        · rw [visitedOf_settle_ne _ name (Except.error (RunErr.body e)) t htn]
          exact hvissd t htn
      · refine ⟨L ++ [(name, results)], ?_, ?_⟩
        · show sd.invocationLog ++ [(name, results)] = s.invocationLog ++ (L ++ [(name, results)])
          rw [hlogsd, List.append_assoc]
        · intro p hp
          rcases List.mem_append.mp hp with h1 | h2
          · have hLn := hnotlog_L p h1
            refine ⟨?_, ?_⟩
            · have h3 := (hLp p h1).1
              rw [hpr1 p.1] at h3
              exact h3
            · have h3 := (hLp p h1).2
              rw [hv1ne p.1 hLn] at h3
              exact h3
          · rw [List.mem_singleton.mp h2]
            exact ⟨hpsn, hvsn⟩
      · intro t o ho
        have htn : t ≠ name := by
          intro he
          rw [he, hpsn] at ho
          cases ho
        rw [promiseOf_settle_ne _ name (Except.error (RunErr.body e)) t htn]
        show promiseOf sd t = some o
        refine hdeps.promMono t o ?_
        rw [hpr1 t]
        exact ho
      · intro t x hx
        have htn : t ≠ name := by
          intro he
          have hxs : (s.taskErrorMap.lookup t).isSome = true := by rw [hx]; rfl
          obtain ⟨p, hpmem, hp1⟩ := hinv.errKeys t hxs
          rw [he] at hp1
          exact hnotlog_s p.2 (by rw [← hp1]; exact hpmem)
        show (((name, RunErr.body e) :: sd.taskErrorMap).lookup t) = some x
        rw [lookup_cons_ne _ _ htn]
        exact hdeps.errMono t x hx
      · intro w hw
        cases hw
      · intro rm hmem
        have hmem2 : (name, rm) ∈ sd.invocationLog ++ [(name, results)] := hmem
        rcases List.mem_append.mp hmem2 with h1 | h2
        · rw [hlogsd] at h1
          rcases List.mem_append.mp h1 with h3 | h4
          · exact Or.inl h3
          · exact absurd rfl (hnotlog_L (name, rm) h4)
        · have h3 := List.mem_singleton.mp h2
          have hrm : rm = results := congrArg Prod.snd h3
          refine Or.inr ⟨info.task, hops, Or.inr ⟨e, ?_, rfl⟩⟩
          rw [hrm]
          exact hok
      · left
        rw [promiseOf_settle_self _ name (Except.error (RunErr.body e)) j hj2]
        exact fun h => by cases h


theorem stepok_of_depfailure (C : List String) (s : RunnerState V E) (name : String)
    (info : TaskInfo V E) (l : List String) (sd : RunnerState V E) (results : ResultMap V)
    (f : String) (fs : List String)
    (hm : s.taskMap name = some info) (hv2 : info.visited = false) (hp : info.promise = none)
    (hinv : Inv s) (hsc : SuccClosed s C)
    (hdepsEq : info.dependencies = l)
    (hdeps : DepsOk (updateTask s name markVisited) C l sd results (f :: fs)) :
    StepOk s C name (updateTask sd name (settle (Except.error (RunErr.depFailures (f :: fs)))))
      (Except.error (RunErr.depFailures (f :: fs))) := by
  have hframe1 : Framed s (updateTask s name markVisited) :=
    framed_updateTask s name markVisited markVisited_persist
  have hpr1 : ∀ t, promiseOf (updateTask s name markVisited) t = promiseOf s t :=
    promiseOf_mark s name
  have hv1self : visitedOf (updateTask s name markVisited) name = true :=
    visitedOf_mark_self s name info hm
  have hv1ne : ∀ t, t ≠ name → visitedOf (updateTask s name markVisited) t = visitedOf s t :=
    fun t ht => visitedOf_mark_ne s name t ht
  have hpsn : promiseOf s name = none := by simp [promiseOf, hm, hp]
  have hvsn : visitedOf s name = false := by simp [visitedOf, hm, hv2]
  have hframe_sd : Framed s sd := hframe1.trans hdeps.framed
  have hvissd_name : visitedOf sd name = true := by rw [hdeps.vis name]; exact hv1self
  have hvissd : ∀ t, t ≠ name → visitedOf sd t = visitedOf s t := by
    intro t ht
    rw [hdeps.vis t]
    exact hv1ne t ht
  have hpromsd_name : promiseOf sd name = none := hdeps.inv.visPromise name hvissd_name
  have hsdreg : (sd.taskMap name).isSome = true := by
    rw [framed_isSome hframe_sd name, hm]
    rfl
  have hdepss : depsOf s name = some l := by simp [depsOf, hm, hdepsEq]
  have hdepssd : depsOf sd name = some l := by rw [framed_depsOf hframe_sd]; exact hdepss
  obtain ⟨L, hL, hLp⟩ := hdeps.logExt
  have hnotlog_s : ∀ rm, (name, rm) ∉ s.invocationLog := notLogged_of_fresh hinv hm hv2 hp
  have hnotlog_L : ∀ p ∈ L, p.1 ≠ name := by
    intro p hpL he
    have h2 := (hLp p hpL).2
    rw [he, hv1self] at h2
    cases h2
  have hlogsd : sd.invocationLog = s.invocationLog ++ L := hL
  have hnotlog_sd : ∀ rm, (name, rm) ∉ sd.invocationLog := by
    intro rm hmem
    rw [hlogsd] at hmem
    rcases List.mem_append.mp hmem with h1 | h2
    · exact hnotlog_s rm h1
    · exact hnotlog_L (name, rm) h2 rfl
  obtain ⟨G, hG⟩ := hdeps.cycExt
  have hcycsd : sd.cycleLog = s.cycleLog ++ G := hG
  have hspac_sd : ∀ ds, depsOf sd name = some ds → ∀ d ∈ ds,
      promiseOf sd d ≠ none ∨ sd.cycleLog ≠ [] ∨ (sd.taskMap d).isSome = false := by
    intro ds hds d hd
    rw [hdepssd] at hds
    cases hds
    rcases hdeps.attempted d hd with h1 | h2 | h3
    · exact Or.inl h1
    · exact Or.inr (Or.inl h2)
    · refine Or.inr (Or.inr ?_)
      rw [framed_isSome hdeps.framed d]
      exact h3
  have hInCcyc : name ∈ C → sd.cycleLog ≠ [] := by
    intro hnC
    obtain ⟨ds, hds, d, hd, hdC⟩ := hsc name hnC
    rw [hdepss] at hds
    cases hds
    exact (hdeps.inCdep d hd hdC).2
  obtain ⟨j, hj⟩ := Option.isSome_iff_exists.mp hsdreg
  have hinv3 : Inv (updateTask sd name (settle (Except.error (RunErr.depFailures (f :: fs))))) := by
    refine inv_settle sd name (Except.error (RunErr.depFailures (f :: fs))) j hj hdeps.inv
      hpromsd_name ?_ ?_ ?_
    · exact Or.inr ⟨f :: fs, rfl, hnotlog_sd⟩
    · intro w hw
      cases hw
    · intro ds hds d hd
      exact hspac_sd ds hds d hd
  have hcyc3 : CycInv (updateTask sd name (settle (Except.error (RunErr.depFailures (f :: fs))))) C := by
    refine cycinv_settle sd name (Except.error (RunErr.depFailures (f :: fs))) C j hj hdeps.cyc ?_
    intro hnC
    refine ⟨?_, hInCcyc hnC⟩
    intro v h
    cases h
  refine {
    framed := hframe_sd.trans
      (framed_updateTask sd name (settle (Except.error (RunErr.depFailures (f :: fs))))
        (settle_persist _))
    vis := ?_
    logExt := ?_
    promMono := ?_
    cycExt := ⟨G, hcycsd⟩
    errMono := ?_
    retOk := ?_
    retLog := ?_
    attempted := ?_
    inv := hinv3
    cyc := hcyc3
    inC := ?_ }
  · intro t
    by_cases htn : t = name
    · subst htn
      rw [visitedOf_settle_self sd t (Except.error (RunErr.depFailures (f :: fs))) j hj, hvsn]
    · rw [visitedOf_settle_ne sd name (Except.error (RunErr.depFailures (f :: fs))) t htn]
      exact hvissd t htn
  · refine ⟨L, ?_, ?_⟩
    · show sd.invocationLog = s.invocationLog ++ L
      exact hlogsd
    · intro p hp
      have hLn := hnotlog_L p hp
      refine ⟨?_, ?_⟩
      · have h3 := (hLp p hp).1
        rw [hpr1 p.1] at h3
        exact h3
      · have h3 := (hLp p hp).2
        rw [hv1ne p.1 hLn] at h3
        exact h3
  · intro t o ho
    have htn : t ≠ name := by
      intro he
      rw [he, hpsn] at ho
      cases ho
    rw [promiseOf_settle_ne sd name (Except.error (RunErr.depFailures (f :: fs))) t htn]
    refine hdeps.promMono t o ?_
    rw [hpr1 t]
    exact ho
  · intro t x hx
    show sd.taskErrorMap.lookup t = some x
    exact hdeps.errMono t x hx
  · intro w hw
    cases hw
  · intro rm hmem
    have hmem2 : (name, rm) ∈ sd.invocationLog := hmem
    rw [hlogsd] at hmem2
    rcases List.mem_append.mp hmem2 with h1 | h2
    · exact Or.inl h1
    · exact absurd rfl (hnotlog_L (name, rm) h2)
  · left
    rw [promiseOf_settle_self sd name (Except.error (RunErr.depFailures (f :: fs))) j hj]
    exact fun h => by cases h
  · intro hnC
    refine ⟨⟨RunErr.depFailures (f :: fs), rfl⟩, ?_⟩
    show sd.cycleLog ≠ []
    exact hInCcyc hnC


theorem inv_mark (s : RunnerState V E) (name : String) (info : TaskInfo V E)
    (hm : s.taskMap name = some info) (hp : info.promise = none) (hv2 : info.visited = false)
    (hinv : Inv s) : Inv (updateTask s name markVisited) := by
  have hframe1 : Framed s (updateTask s name markVisited) :=
    framed_updateTask s name markVisited markVisited_persist
  have hpr1 : ∀ t, promiseOf (updateTask s name markVisited) t = promiseOf s t :=
    promiseOf_mark s name
  have hv1self : visitedOf (updateTask s name markVisited) name = true :=
    visitedOf_mark_self s name info hm
  have hv1ne : ∀ t, t ≠ name → visitedOf (updateTask s name markVisited) t = visitedOf s t :=
    fun t ht => visitedOf_mark_ne s name t ht
  have hpsn : promiseOf s name = none := by simp [promiseOf, hm, hp]
  refine ⟨?_, ?_, ?_, ?_, ?_, ?_, ?_, ?_, ?_, ?_⟩
  · intro p hp2
    rw [framed_isSome hframe1 p.1]
    exact hinv.logReg p hp2
  · exact hinv.logOnce
  · intro p hp2
    by_cases hpn : p.1 = name
    · right
      rw [hpn]
      exact hv1self
    · rcases hinv.logPromise p hp2 with h1 | h2
      · left
        rw [hpr1 p.1]
        exact h1
      · right
        rw [hv1ne p.1 hpn]
        exact h2
  · exact hinv.errKeys
  · intro p hp2 op e hop herr
    have hop2 : opOf s p.1 = some op := by rw [← framed_opOf hframe1]; exact hop
    exact hinv.errInv p hp2 op e hop2 herr
  · intro t o hpo
    rw [hpr1 t] at hpo
    rcases hinv.promChar t o hpo with ⟨rm, op, hop, hmem, hc⟩ | ⟨fs, hfs, hnl⟩
    · refine Or.inl ⟨rm, op, ?_, hmem, hc⟩
      rw [framed_opOf hframe1]
      exact hop
    · exact Or.inr ⟨fs, hfs, hnl⟩
  · intro t hvt
    rw [hpr1 t]
    by_cases htn : t = name
    · rw [htn]
      exact hpsn
    · rw [hv1ne t htn] at hvt
      exact hinv.visPromise t hvt
  · intro t w hpt ds hds d hd
    rw [hpr1 t] at hpt
    have hds2 : depsOf s t = some ds := by rw [← framed_depsOf hframe1]; exact hds
    obtain ⟨w2, hw2⟩ := hinv.okClosed t w hpt ds hds2 d hd
    refine ⟨w2, ?_⟩
    rw [hpr1 d]
    exact hw2
  · intro p hp2
    obtain ⟨ds, hds, hkeys2, htr⟩ := hinv.goodLog p hp2
    refine ⟨ds, by rw [framed_depsOf hframe1]; exact hds, hkeys2, ?_⟩
    intro d w hw
    obtain ⟨op2, rm2, hop2, hm2, hok2⟩ := htr d w hw
    exact ⟨op2, rm2, by rw [framed_opOf hframe1]; exact hop2, hm2, hok2⟩
  · intro t hpt ds hds d hd
    rw [hpr1 t] at hpt
    have hds2 : depsOf s t = some ds := by rw [← framed_depsOf hframe1]; exact hds
    rcases hinv.spac t hpt ds hds2 d hd with h1 | h2 | h3
    · left
      rw [hpr1 d]
      exact h1
    · right; left
      exact h2
    · right; right
      rw [framed_isSome hframe1 d]
      exact h3

theorem runTask_master (C : List String) :
    ∀ (fuel : Nat) (s : RunnerState V E) (name : String),
      Inv s → CycInv s C → Coherent s → SuccClosed s C → unvisitedCount s < fuel →
      StepOk s C name (runTask fuel s name).1 (runTask fuel s name).2 := by
  intro fuel
  induction fuel with
  | zero =>
      intro s name _ _ _ _ hfuel
      omega
  | succ fuel ih =>
      intro s name hinv hcyc hcoh hsc hfuel
      simp only [runTask]
      split
      · next hm =>
          refine {
            framed := framed_refl s
            vis := fun t => rfl
            logExt := ⟨[], (List.append_nil _).symm, fun p hp => absurd hp (List.not_mem_nil p)⟩
            promMono := fun t o h => h
            cycExt := ⟨[], (List.append_nil _).symm⟩
            errMono := fun t x h => h
            retOk := fun v h => Except.noConfusion h
            retLog := fun rm h => Or.inl h
            attempted := Or.inr (Or.inr (congrArg Option.isSome hm))
            inv := hinv
            cyc := hcyc
            inC := ?_ }
          intro hnC
          exfalso
          obtain ⟨ds, hds, d, hd, hdC⟩ := hsc name hnC
          rw [depsOf, hm] at hds
          cases hds
      · next info hm =>
          split
          · next hv =>
            refine {
              framed := ⟨rfl, rfl, rfl⟩
              vis := fun t => rfl
              logExt := ⟨[], (List.append_nil _).symm, fun p hp => absurd hp (List.not_mem_nil p)⟩
              promMono := fun t o h => h
              cycExt := ⟨[name], rfl⟩
              errMono := fun t x h => h
              retOk := fun v h => Except.noConfusion h
              retLog := fun rm h => Or.inl h
              attempted := Or.inr (Or.inl (by simp))
              inv := ?_
              cyc := ?_
              inC := fun _ => ⟨⟨RunErr.cycle name, rfl⟩, by simp⟩ }
            · exact ⟨hinv.logReg, hinv.logOnce, hinv.logPromise, hinv.errKeys, hinv.errInv,
                hinv.promChar, hinv.visPromise, hinv.okClosed, hinv.goodLog,
                fun t hpt ds hds d hd => Or.inr (Or.inl (by simp))⟩
            · exact ⟨hcyc.noOk, hcyc.logFree, fun t ht o hp2 => by simp⟩
          · next hv =>
            have hv2 : info.visited = false := by
              revert hv
              cases info.visited <;> simp
            split
            · next outcome hp =>
                have hps : promiseOf s name = some outcome := by simp [promiseOf, hm, hp]
                cases outcome with
                | ok v =>
                    refine {
                      framed := framed_refl s
                      vis := fun t => rfl
                      logExt := ⟨[], (List.append_nil _).symm,
                        fun p hp2 => absurd hp2 (List.not_mem_nil p)⟩
                      promMono := fun t o h => h
                      cycExt := ⟨[], (List.append_nil _).symm⟩
                      errMono := fun t x h => h
                      retOk := ?_
                      retLog := fun rm h => Or.inl h
                      attempted := Or.inl (by rw [hps]; exact fun h => by cases h)
                      inv := hinv
                      cyc := hcyc
                      inC := ?_ }
                    · intro w hw
                      have hvw : v = w := Except.ok.inj hw
                      rw [← hvw]
                      exact hps
                    · intro hnC
                      exact absurd hps (hcyc.noOk name hnC v)
                | error er =>
                    refine {
                      framed := framed_refl s
                      vis := fun t => rfl
                      logExt := ⟨[], (List.append_nil _).symm,
                        fun p hp2 => absurd hp2 (List.not_mem_nil p)⟩
                      promMono := fun t o h => h
                      cycExt := ⟨[], (List.append_nil _).symm⟩
                      errMono := fun t x h => h
                      retOk := fun v h => Except.noConfusion h
                      retLog := fun rm h => Or.inl h
                      attempted := Or.inl (by rw [hps]; exact fun h => by cases h)
                      inv := hinv
                      cyc := hcyc
                      inC := fun hnC => ⟨⟨er, rfl⟩, hcyc.errCached name hnC er hps⟩ }
            · next hp =>
                cases hb : runTaskBody (runTask fuel) (updateTask s name markVisited) info name with
                | mk s₂ outcome =>
                  have hframe1 : Framed s (updateTask s name markVisited) :=
                    framed_updateTask s name markVisited markVisited_persist
                  have hinv1 := inv_mark s name info hm hp hv2 hinv
                  have hcyc1 : CycInv (updateTask s name markVisited) C :=
                    cycinv_of_eq hcyc (promiseOf_mark s name) (fun p hp2 => Or.inl hp2) rfl
                  have hcoh1 := framed_coherent hframe1 hcoh
                  have hsc1 := framed_succClosed hframe1 hsc
                  have hfuel1 : unvisitedCount (updateTask s name markVisited) < fuel := by
                    have h2 := unvisitedCount_mark hcoh hm hv2
                    omega
                  rcases runTaskBody_spec (runTask fuel) _ info name hb with
                    ⟨hdepsE, hstand⟩ | ⟨d, rest, sd, results, hdepsE, hall, hstand⟩ |
                    ⟨d, rest, results, f, fs, hdepsE, hall, hout⟩
                  · have hdeps0 := runAll_master C fuel ih []
                      (updateTask s name markVisited) hinv1 hcyc1 hcoh1 hsc1 hfuel1
                    exact stepok_of_standalone C s name info [] _ [] s₂ outcome hm hv2 hp
                      hinv hsc hdepsE hdeps0 hstand
                  · have hdeps1 := runAll_master C fuel ih (d :: rest)
                      (updateTask s name markVisited) hinv1 hcyc1 hcoh1 hsc1 hfuel1
                    rw [hall] at hdeps1
                    exact stepok_of_standalone C s name info (d :: rest) sd results s₂ outcome
                      hm hv2 hp hinv hsc hdepsE hdeps1 hstand
                  · have hdeps1 := runAll_master C fuel ih (d :: rest)
                      (updateTask s name markVisited) hinv1 hcyc1 hcoh1 hsc1 hfuel1
                    rw [hall] at hdeps1
                    subst hout
                    exact stepok_of_depfailure C s name info (d :: rest) s₂ results f fs
                      hm hv2 hp hinv hsc hdepsE hdeps1

end Master


theorem promiseOf_of_clean {s : RunnerState V E} (hclean : Clean s) (t : String) :
    promiseOf s t = none := by
  unfold promiseOf
  cases hm : s.taskMap t with
  | none => rfl
  | some i => exact (hclean t i hm).1

theorem visitedOf_of_clean {s : RunnerState V E} (hclean : Clean s) (t : String) :
    visitedOf s t = false := by
  unfold visitedOf
  cases hm : s.taskMap t with
  | none => rfl
  | some i => simp [(hclean t i hm).2]

theorem inv_of_clean {s : RunnerState V E} (hclean : Clean s) (hlog : s.invocationLog = [])
    (herr : s.taskErrorMap = []) : Inv s := by
  refine ⟨?_, ?_, ?_, ?_, ?_, ?_, ?_, ?_, ?_, ?_⟩
  · intro p hp
    rw [hlog] at hp
    cases hp
  · rw [hlog]
    exact List.nodup_nil
  · intro p hp
    rw [hlog] at hp
    cases hp
  · intro t ht
    rw [herr] at ht
    simp [List.lookup] at ht
  · intro p hp
    rw [hlog] at hp
    cases hp
  · intro t o hpo
    rw [promiseOf_of_clean hclean t] at hpo
    cases hpo
  · intro t hvt
    exact promiseOf_of_clean hclean t
  · intro t v hpt
    rw [promiseOf_of_clean hclean t] at hpt
    cases hpt
  · intro p hp
    rw [hlog] at hp
    cases hp
  · intro t hpt
    exact absurd (promiseOf_of_clean hclean t) hpt

theorem cycinv_of_clean {s : RunnerState V E} (C : List String) (hclean : Clean s)
    (hlog : s.invocationLog = []) : CycInv s C := by
  refine ⟨?_, ?_, ?_⟩
  · intro t _ v
    rw [promiseOf_of_clean hclean t]
    exact fun h => by cases h
  · intro t _ rm hmem
    rw [hlog] at hmem
    cases hmem
  · intro t _ o hpo
    rw [promiseOf_of_clean hclean t] at hpo
    cases hpo

theorem ok_propagates (s₁ : RunnerState V E) (hinv : Inv s₁) (b : String) :
    ∀ a, Reaches s₁ a b → ∀ v, promiseOf s₁ a = some (Except.ok v) →
      ∃ w, promiseOf s₁ b = some (Except.ok w) := by
  intro a hab
  induction hab using Relation.ReflTransGen.head_induction_on with
  | refl => exact fun v hv => ⟨v, hv⟩
  | head hac hcb ihc =>
      intro v hv
      next a2 c =>
        obtain ⟨ds, hds, hcds⟩ := hac
        obtain ⟨w, hw⟩ := hinv.okClosed a2 v hv ds hds c hcds
        exact ihc w hw

theorem attempted_propagates (s₁ : RunnerState V E) (hinv : Inv s₁) (b : String)
    (hregb : (s₁.taskMap b).isSome = true) :
    ∀ a, Reaches s₁ a b → promiseOf s₁ a ≠ none →
      promiseOf s₁ b ≠ none ∨ s₁.cycleLog ≠ [] := by
  intro a hab
  induction hab using Relation.ReflTransGen.head_induction_on with
  | refl => exact fun h => Or.inl h
  | head hac hcb ihc =>
      intro hpa
      next a2 c =>
        obtain ⟨ds, hds, hcds⟩ := hac
        rcases hinv.spac a2 hpa ds hds c hcds with h1 | h2 | h3
        · exact ihc h1
        · exact Or.inr h2
        · exfalso
          rcases Relation.ReflTransGen.cases_head hcb with hcb2 | ⟨x, hcx, _⟩
          · rw [hcb2] at h3
            rw [hregb] at h3
            cases h3
          · obtain ⟨ds2, hds2, _⟩ := hcx
            unfold depsOf at hds2
            cases hmc : s₁.taskMap c with
            | none => rw [hmc] at hds2; cases hds2
            | some i => rw [hmc] at h3; cases h3


theorem reg_of_succClosed {s : RunnerState V E} {C : List String} (hsc : SuccClosed s C)
    {t : String} (ht : t ∈ C) : (s.taskMap t).isSome = true := by
  obtain ⟨ds, hds, _⟩ := hsc t ht
  unfold depsOf at hds
  cases hm : s.taskMap t with
  | none => rw [hm] at hds; cases hds
  | some i => rfl

theorem reg_of_reaches {s : RunnerState V E} {root t₀ : String} (h : Reaches s root t₀)
    (hreg : (s.taskMap t₀).isSome = true) : (s.taskMap root).isSome = true := by
  rcases Relation.ReflTransGen.cases_head h with he | ⟨c, hrc, _⟩
  · rw [he]
    exact hreg
  · obtain ⟨ds, hds, _⟩ := hrc
    unfold depsOf at hds
    cases hm : s.taskMap root with
    | none => rw [hm] at hds; cases hds
    | some i => rfl

theorem run_spec (s : RunnerState V E) (root : String) (hexec : s.execInProgress = false) :
    ∃ s₁ r, runTask (s.names.length + 1) ({ s with execInProgress := true, taskErrorMap := [], invocationLog := [], cycleLog := [] } : RunnerState V E) root = (s₁, r) ∧
      ((∃ v, r = Except.ok v ∧
          run s root = (sweep ({ s₁ with execInProgress := false } : RunnerState V E), RunResult.resolved v)) ∨
        (∃ e, r = Except.error e ∧
          run s root = (sweep ({ s₁ with execInProgress := false, taskErrorMap := (root, e) :: s₁.taskErrorMap } : RunnerState V E), RunResult.rejected ((root, e) :: s₁.taskErrorMap)))) := by
  cases hr : runTask (s.names.length + 1) ({ s with execInProgress := true, taskErrorMap := [], invocationLog := [], cycleLog := [] } : RunnerState V E) root with
  | mk s₁ r =>
    refine ⟨s₁, r, rfl, ?_⟩
    cases r with
    | ok v =>
        left
        refine ⟨v, rfl, ?_⟩
        unfold run runWith
        rw [hexec]
        simp only [Bool.false_eq_true, if_false]
        rw [hr]
    | error e =>
        right
        refine ⟨e, rfl, ?_⟩
        unfold run runWith
        rw [hexec]
        simp only [Bool.false_eq_true, if_false]
        rw [hr]

theorem run_fuel_ok (s : RunnerState V E) :
    unvisitedCount ({ s with execInProgress := true, taskErrorMap := [], invocationLog := [], cycleLog := [] } : RunnerState V E) < s.names.length + 1 :=
  Nat.lt_succ_of_le (List.length_filter_le _ _)

/-- C2.  Run on a graph with a dependency cycle reachable from the root: the
cycle is given by its member set `C` (nonempty and successor-closed — every
member has a direct dependency on the cycle again), one of whose members is
reachable from `root`.  `run root` rejects with the aggregate
`TaskRunError`; the rejection is attributable to CycleError: at least one
`Cycle found at '<name>'` rejection, naming the re-entered task, was
produced during the run (by the time it reaches the aggregate it has been
folded into `Dependency failures` entries, exactly as spec §7 states); and
the operation of no task on the cycle is ever invoked. -/
theorem run_rejects_on_cycle (s : RunnerState V E) (root : String) (C : List String)
    (hexec : s.execInProgress = false) (hclean : Clean s) (hcoh : Coherent s)
    (hCne : C ≠ []) (hsc : SuccClosed s C) (hreach : ∃ t ∈ C, Reaches s root t) :
    (∃ m, (run s root).2 = RunResult.rejected m) ∧
    (run s root).1.cycleLog ≠ [] ∧
    (∀ t ∈ C, ∀ rm, (t, rm) ∉ (run s root).1.invocationLog) := by
  obtain ⟨t₀, ht₀, hreach₀⟩ := hreach
  obtain ⟨s₁, r, hr, hcases⟩ := run_spec s root hexec
  have hstep := runTask_master C (s.names.length + 1)
    ({ s with execInProgress := true, taskErrorMap := [], invocationLog := [], cycleLog := [] } : RunnerState V E)
    root (inv_of_clean hclean rfl rfl) (cycinv_of_clean C hclean rfl) hcoh hsc (run_fuel_ok s)
  rw [hr] at hstep
  have hregt₀ : (s.taskMap t₀).isSome = true := reg_of_succClosed hsc ht₀
  have hreach₁ : Reaches s₁ root t₀ := by
    rw [framed_reaches hstep.framed]
    exact hreach₀
  have hregt₀s₁ : (s₁.taskMap t₀).isSome = true := by
    rw [framed_isSome hstep.framed t₀]
    exact hregt₀
  rcases hcases with ⟨v, hrv, hrun⟩ | ⟨e, hre, hrun⟩
  · exfalso
    subst hrv
    have hok := hstep.retOk v rfl
    obtain ⟨w, hw⟩ := ok_propagates s₁ hstep.inv t₀ root hreach₁ v hok
    exact hstep.cyc.noOk t₀ ht₀ w hw
  · subst hre
    rw [hrun]
    have hcyclog : s₁.cycleLog ≠ [] := by
      rcases hstep.attempted with h1 | h2 | h3
      · rcases attempted_propagates s₁ hstep.inv t₀ hregt₀s₁ root hreach₁ h1 with h4 | h5
        · cases hpt : promiseOf s₁ t₀ with
          | none => exact absurd hpt h4
          | some o =>
              cases o with
              | ok w => exact absurd hpt (hstep.cyc.noOk t₀ ht₀ w)
              | error o2 => exact hstep.cyc.errCached t₀ ht₀ o2 hpt
        · exact h5
      · exact h2
      · exfalso
        have hregroot : (s.taskMap root).isSome = true := reg_of_reaches hreach₀ hregt₀
        rw [hregroot] at h3
        cases h3
    refine ⟨⟨(root, e) :: s₁.taskErrorMap, rfl⟩, ?_, ?_⟩
    · show ({ s₁ with execInProgress := false, taskErrorMap := (root, e) :: s₁.taskErrorMap } : RunnerState V E).cycleLog ≠ []
      exact hcyclog
    · intro t ht rm
      show (t, rm) ∉ s₁.invocationLog
      exact hstep.cyc.logFree t ht rm


/-- The two-task cycle `root ↔ a`, built through `addTask`. -/
def cycGraph : RunnerState Nat Nat :=
  (addTask ((addTask (initialState Nat Nat) "a" ["root"] (fun _ => Except.ok 0)).1)
    "root" ["a"] (fun _ => Except.ok 0)).1

theorem cycGraph_taskMap (n : String) : cycGraph.taskMap n =
    if n = "root" then some ⟨["a"], fun _ => Except.ok 0, none, false⟩
    else if n = "a" then some ⟨["root"], fun _ => Except.ok 0, none, false⟩ else none := rfl

theorem cycGraph_clean : Clean cycGraph := by
  intro t i h
  rw [cycGraph_taskMap t] at h
  split at h
  · cases h
    exact ⟨rfl, rfl⟩
  · split at h
    · cases h
      exact ⟨rfl, rfl⟩
    · cases h

theorem cycGraph_coherent : Coherent cycGraph := by
  constructor
  · intro n
    rw [show ((cycGraph.taskMap n).isSome = true) = ((if n = "root"
        then some (⟨["a"], fun _ => Except.ok 0, none, false⟩ : TaskInfo Nat Nat)
        else if n = "a" then some ⟨["root"], fun _ => Except.ok 0, none, false⟩
        else none).isSome = true) from congrArg (fun o => (Option.isSome o = true)) (cycGraph_taskMap n)]
    by_cases h1 : n = "root"
    · simp [h1, cycGraph, addTask, initialState]
    · by_cases h2 : n = "a"
      · simp [h1, h2, cycGraph, addTask, initialState]
      · simp [h1, h2, cycGraph, addTask, initialState]
  · show List.Nodup cycGraph.names
    decide

theorem cycGraph_succClosed : SuccClosed cycGraph ["root", "a"] := by
  intro t ht
  rcases List.mem_cons.mp ht with h1 | h2
  · subst h1
    exact ⟨["a"], rfl, "a", List.mem_singleton_self _, by simp⟩
  · rw [List.mem_singleton.mp h2]
    exact ⟨["root"], rfl, "root", List.mem_singleton_self _, by simp⟩

theorem run_rejects_on_cycle_witness :
    (cycGraph.execInProgress = false) ∧ Clean cycGraph ∧ Coherent cycGraph ∧
    ((["root", "a"] : List String) ≠ []) ∧ SuccClosed cycGraph ["root", "a"] ∧
    (∃ t ∈ (["root", "a"] : List String), Reaches cycGraph "root" t) ∧
    ((∃ m, (run cycGraph "root").2 = RunResult.rejected m) ∧
      (run cycGraph "root").1.cycleLog ≠ [] ∧
      (∀ t ∈ (["root", "a"] : List String), ∀ rm,
        (t, rm) ∉ (run cycGraph "root").1.invocationLog)) := by
  have h1 : cycGraph.execInProgress = false := rfl
  have h4 : (["root", "a"] : List String) ≠ [] := by simp
  have h6 : ∃ t ∈ (["root", "a"] : List String), Reaches cycGraph "root" t :=
    ⟨"root", by simp, Relation.ReflTransGen.refl⟩
  exact ⟨h1, cycGraph_clean, cycGraph_coherent, h4, cycGraph_succClosed, h6,
    run_rejects_on_cycle cycGraph "root" ["root", "a"] h1 cycGraph_clean cycGraph_coherent
      h4 cycGraph_succClosed h6⟩


theorem succClosed_nil (s : RunnerState V E) : SuccClosed s [] :=
  fun t ht => absurd ht (List.not_mem_nil t)

/-- C3.  Whenever `run root` fails, it rejects with exactly one
`TaskRunError` whose `failedTaskMap` contains, for every task whose
operation was invoked during that run and failed, that task's own error
(wrapped at the key of that task), and the requested task's own name is
always present as a key — even when its body never executed because a
dependency failed (its entry is then the `Dependency failures`
rejection inserted by `run`'s catch handler). -/
theorem run_failure_aggregates (s : RunnerState V E) (root : String)
    (hexec : s.execInProgress = false) (hclean : Clean s) (hcoh : Coherent s)
    (s₁ : RunnerState V E) (m : List (String × RunErr E))
    (hrun : run s root = (s₁, RunResult.rejected m)) :
    ((m.lookup root).isSome = true) ∧
    (∀ t rm op e, (t, rm) ∈ s₁.invocationLog → opOf s t = some op →
      op rm = Except.error e → m.lookup t = some (RunErr.body e)) := by
  obtain ⟨s₁x, r, hr, hcases⟩ := run_spec s root hexec
  have hstep := runTask_master [] (s.names.length + 1)
    ({ s with execInProgress := true, taskErrorMap := [], invocationLog := [], cycleLog := [] } : RunnerState V E)
    root (inv_of_clean hclean rfl rfl) (cycinv_of_clean [] hclean rfl) hcoh
    (succClosed_nil _) (run_fuel_ok s)
  rw [hr] at hstep
  rcases hcases with ⟨v, hrv, hrun2⟩ | ⟨e, hre, hrun2⟩
  · rw [hrun] at hrun2
    injection hrun2 with hs hres
    cases hres
  · rw [hrun] at hrun2
    injection hrun2 with hs hres
    have hm : m = (root, e) :: s₁x.taskErrorMap := RunResult.rejected.inj hres
    subst hs
    subst hre
    constructor
    · rw [hm, lookup_cons_self]
      rfl
    · intro t rm op e2 hmem hop herr2
      have hmem2 : (t, rm) ∈ s₁x.invocationLog := hmem
      have hoo : opOf s₁x = opOf s := framed_opOf hstep.framed
      have hop2 : opOf s₁x t = some op := by rw [hoo]; exact hop
      by_cases htn : t = root
      · subst htn
        rw [hm, lookup_cons_self]
        rcases hstep.retLog rm hmem2 with h1 | ⟨op3, hop3, hcase⟩
        · cases h1
        · have hop4 : opOf s₁x t = some op3 := by rw [hoo]; exact hop3
          have hopeq : op3 = op := by
            rw [hop2] at hop4
            exact (Option.some.inj hop4).symm
          subst hopeq
          rcases hcase with ⟨w, hw, hrw⟩ | ⟨e3, he3, hre3⟩
          · rw [herr2] at hw
            cases hw
          · have he23 : e3 = e2 := by
              rw [herr2] at he3
              exact (Except.error.inj he3).symm
            have hre4 : (Except.error e : Except (RunErr E) V) = Except.error (RunErr.body e3) := hre3
            have hee : e = RunErr.body e3 := Except.error.inj hre4
            rw [hee, he23]
      · rw [hm, lookup_cons_ne _ _ htn]
        exact hstep.inv.errInv (t, rm) hmem2 op e2 hop2 herr2

/-- C7.  Every operation invoked during a run receives a ResultMap whose
keys are exactly the task's direct dependency names — a key is present for
every direct dependency, whatever its value, and no other keys (in
particular no transitive dependency) appear — and each key is mapped to the
result that this dependency's own invocation produced. -/
theorem resultmap_exact_direct_deps (s : RunnerState V E) (root : String)
    (hexec : s.execInProgress = false) (hclean : Clean s) (hcoh : Coherent s) :
    ∀ t rm, (t, rm) ∈ (run s root).1.invocationLog →
      ∃ ds, depsOf s t = some ds ∧
        (∀ d, ((rm.lookup d).isSome = true) ↔ d ∈ ds) ∧
        (∀ d v, rm.lookup d = some v → ∃ op2 rm2, opOf s d = some op2 ∧
          (d, rm2) ∈ (run s root).1.invocationLog ∧ op2 rm2 = Except.ok v) := by
  obtain ⟨s₁x, r, hr, hcases⟩ := run_spec s root hexec
  have hstep := runTask_master [] (s.names.length + 1)
    ({ s with execInProgress := true, taskErrorMap := [], invocationLog := [], cycleLog := [] } : RunnerState V E)
    root (inv_of_clean hclean rfl rfl) (cycinv_of_clean [] hclean rfl) hcoh
    (succClosed_nil _) (run_fuel_ok s)
  rw [hr] at hstep
  have hoo : opOf s₁x = opOf s := framed_opOf hstep.framed
  have hdd : depsOf s₁x = depsOf s := framed_depsOf hstep.framed
  have hfin : (run s root).1.invocationLog = s₁x.invocationLog := by
    rcases hcases with ⟨v, _, hrun2⟩ | ⟨e, _, hrun2⟩
    · rw [hrun2]
      rfl
    · rw [hrun2]
      rfl
  rw [hfin]
  intro t rm hmem
  obtain ⟨ds, hds, hkeys, htr⟩ := hstep.inv.goodLog (t, rm) hmem
  refine ⟨ds, by rw [← hdd]; exact hds, hkeys, ?_⟩
  intro d v hv
  obtain ⟨op2, rm2, hop2, hm2, hok2⟩ := htr d v hv
  exact ⟨op2, rm2, by rw [← hoo]; exact hop2, hm2, hok2⟩


/-- A root with one failing dependency, built through `addTask`. -/
def fGraph : RunnerState Nat Nat :=
  (addTask ((addTask (initialState Nat Nat) "f" [] (fun _ => Except.error 7)).1)
    "root" ["f"] (fun _ => Except.ok 0)).1

theorem fGraph_taskMap (n : String) : fGraph.taskMap n =
    if n = "root" then some ⟨["f"], fun _ => Except.ok 0, none, false⟩
    else if n = "f" then some ⟨[], fun _ => Except.error 7, none, false⟩ else none := rfl

theorem fGraph_clean : Clean fGraph := by
  intro t i h
  rw [fGraph_taskMap t] at h
  split at h
  · cases h
    exact ⟨rfl, rfl⟩
  · split at h
    · cases h
      exact ⟨rfl, rfl⟩
    · cases h

theorem fGraph_coherent : Coherent fGraph := by
  constructor
  · intro n
    rw [show ((fGraph.taskMap n).isSome = true) = ((if n = "root"
        then some (⟨["f"], fun _ => Except.ok 0, none, false⟩ : TaskInfo Nat Nat)
        else if n = "f" then some ⟨[], fun _ => Except.error 7, none, false⟩
        else none).isSome = true) from congrArg (fun o => (Option.isSome o = true)) (fGraph_taskMap n)]
    by_cases h1 : n = "root"
    · simp [h1, fGraph, addTask, initialState]
    · by_cases h2 : n = "f"
      · simp [h1, h2, fGraph, addTask, initialState]
      · simp [h1, h2, fGraph, addTask, initialState]
  · show List.Nodup fGraph.names
    decide

theorem run_failure_aggregates_witness :
    (fGraph.execInProgress = false) ∧ Clean fGraph ∧ Coherent fGraph ∧
    (run fGraph "root" = ((run fGraph "root").1,
      RunResult.rejected [("root", RunErr.depFailures ["f"]), ("f", RunErr.body 7)])) ∧
    ((([("root", RunErr.depFailures ["f"]), ("f", RunErr.body 7)] :
        List (String × RunErr Nat)).lookup "root").isSome = true) ∧
    (∀ t rm op e, (t, rm) ∈ (run fGraph "root").1.invocationLog → opOf fGraph t = some op →
      op rm = Except.error e →
      ([("root", RunErr.depFailures ["f"]), ("f", RunErr.body 7)] :
        List (String × RunErr Nat)).lookup t = some (RunErr.body e)) := by
  have h1 : fGraph.execInProgress = false := rfl
  have hrun : run fGraph "root" = ((run fGraph "root").1,
      RunResult.rejected [("root", RunErr.depFailures ["f"]), ("f", RunErr.body 7)]) := rfl
  have hmain := run_failure_aggregates fGraph "root" h1 fGraph_clean fGraph_coherent
    (run fGraph "root").1 [("root", RunErr.depFailures ["f"]), ("f", RunErr.body 7)] hrun
  exact ⟨h1, fGraph_clean, fGraph_coherent, hrun, hmain.1, hmain.2⟩

/-- A root consuming its direct dependency result, built through `addTask`. -/
def c7Graph : RunnerState Nat Nat :=
  (addTask ((addTask (initialState Nat Nat) "c" [] (fun _ => Except.ok 5)).1)
    "root" ["c"] (fun rm => Except.ok ((rm.lookup "c").getD 0))).1

theorem c7Graph_taskMap (n : String) : c7Graph.taskMap n =
    if n = "root" then some ⟨["c"], fun rm => Except.ok ((rm.lookup "c").getD 0), none, false⟩
    else if n = "c" then some ⟨[], fun _ => Except.ok 5, none, false⟩ else none := rfl

theorem c7Graph_clean : Clean c7Graph := by
  intro t i h
  rw [c7Graph_taskMap t] at h
  split at h
  · cases h
    exact ⟨rfl, rfl⟩
  · split at h
    · cases h
      exact ⟨rfl, rfl⟩
    · cases h

theorem c7Graph_coherent : Coherent c7Graph := by
  constructor
  · intro n
    rw [show ((c7Graph.taskMap n).isSome = true) = ((if n = "root"
        then some (⟨["c"], fun rm => Except.ok ((rm.lookup "c").getD 0), none, false⟩ : TaskInfo Nat Nat)
        else if n = "c" then some ⟨[], fun _ => Except.ok 5, none, false⟩
        else none).isSome = true) from congrArg (fun o => (Option.isSome o = true)) (c7Graph_taskMap n)]
    by_cases h1 : n = "root"
    · simp [h1, c7Graph, addTask, initialState]
    · by_cases h2 : n = "c"
      · simp [h1, h2, c7Graph, addTask, initialState]
      · simp [h1, h2, c7Graph, addTask, initialState]
  · show List.Nodup c7Graph.names
    decide

theorem resultmap_exact_direct_deps_witness :
    (c7Graph.execInProgress = false) ∧ Clean c7Graph ∧ Coherent c7Graph ∧
    (("root", ([("c", 5)] : ResultMap Nat)) ∈ (run c7Graph "root").1.invocationLog) ∧
    (∀ t rm, (t, rm) ∈ (run c7Graph "root").1.invocationLog →
      ∃ ds, depsOf c7Graph t = some ds ∧
        (∀ d, ((rm.lookup d).isSome = true) ↔ d ∈ ds) ∧
        (∀ d v, rm.lookup d = some v → ∃ op2 rm2, opOf c7Graph d = some op2 ∧
          (d, rm2) ∈ (run c7Graph "root").1.invocationLog ∧ op2 rm2 = Except.ok v)) := by
  have h1 : c7Graph.execInProgress = false := rfl
  have hmem : ("root", ([("c", 5)] : ResultMap Nat)) ∈ (run c7Graph "root").1.invocationLog := by
    show ("root", ([("c", 5)] : ResultMap Nat)) ∈ [("c", ([] : ResultMap Nat)), ("root", [("c", 5)])]
    simp
  exact ⟨h1, c7Graph_clean, c7Graph_coherent, hmem,
    resultmap_exact_direct_deps c7Graph "root" h1 c7Graph_clean c7Graph_coherent⟩


/-- Every stored promise is a success. -/
def allOkProm (s : RunnerState V E) : Prop :=
  ∀ t o, promiseOf s t = some o → ∃ v, o = Except.ok v

/-- The dependency closure of every successfully settled task is settled. -/
def reachDone (s : RunnerState V E) : Prop :=
  ∀ t v, promiseOf s t = some (Except.ok v) → ∀ u, Reaches s t u →
    (promiseOf s u).isSome = true

/-- A task is logged exactly when its promise is settled. -/
def logIffDone (s : RunnerState V E) : Prop :=
  ∀ t, (∃ rm, (t, rm) ∈ s.invocationLog) ↔ (promiseOf s t).isSome = true

theorem cycinv_nil (s : RunnerState V E) : CycInv s [] :=
  ⟨fun t ht => absurd ht (List.not_mem_nil t), fun t ht => absurd ht (List.not_mem_nil t),
    fun t ht => absurd ht (List.not_mem_nil t)⟩

theorem framed_wellFormed {s s₂ : RunnerState V E} (h : Framed s s₂)
    (hwf : WellFormedGraph s) : WellFormedGraph s₂ := by
  intro a ds hds d hd
  rw [framed_depsOf h] at hds ⊢
  exact hwf a ds hds d hd

theorem framed_opsTotal {s s₂ : RunnerState V E} (h : Framed s s₂)
    (hops : OpsTotal s) : OpsTotal s₂ := by
  intro a op hop
  rw [framed_opOf h] at hop
  exact hops a op hop

theorem framed_acyclic {s s₂ : RunnerState V E} (h : Framed s s₂)
    (hacy : AcyclicGraph s) : AcyclicGraph s₂ := by
  intro t ht
  rw [framed_dependsOn h] at ht
  exact hacy t ht

theorem countInv_eq_count (log : List (String × ResultMap V)) (t : String) :
    countInv log t = (log.map Prod.fst).count t := by
  unfold countInv
  rw [List.count_eq_countP, List.countP_map]
  rw [← List.countP_eq_length_filter]
  rfl

theorem countInv_one {log : List (String × ResultMap V)} {t : String}
    (hnd : (log.map Prod.fst).Nodup) (hmem : ∃ rm, (t, rm) ∈ log) : countInv log t = 1 := by
  rw [countInv_eq_count]
  obtain ⟨rm, hrm⟩ := hmem
  have hmem2 : t ∈ log.map Prod.fst := List.mem_map.mpr ⟨(t, rm), hrm, rfl⟩
  exact List.count_eq_one_of_mem hnd hmem2

theorem countInv_zero {log : List (String × ResultMap V)} {t : String}
    (hmem : ∀ rm, (t, rm) ∉ log) : countInv log t = 0 := by
  rw [countInv_eq_count]
  refine List.count_eq_zero_of_not_mem ?_
  intro hmem2
  obtain ⟨p, hp, hp1⟩ := List.mem_map.mp hmem2
  exact hmem p.2 (by rw [← hp1]; exact hp)


theorem runDeps_success (fuel : Nat)
    (hstep : ∀ (s : RunnerState V E) (n : String),
      Inv s → Coherent s → WellFormedGraph s → OpsTotal s → AcyclicGraph s →
      allOkProm s → reachDone s → logIffDone s →
      (s.taskMap n).isSome = true → (∀ t, visitedOf s t = true → ¬ Reaches s n t) →
      unvisitedCount s < fuel →
      (∃ v, (runTask fuel s n).2 = Except.ok v) ∧
      (∀ t, (Reaches s n t → (promiseOf (runTask fuel s n).1 t).isSome = true) ∧
        (¬ Reaches s n t → promiseOf (runTask fuel s n).1 t = promiseOf s t)) ∧
      allOkProm (runTask fuel s n).1 ∧ reachDone (runTask fuel s n).1 ∧
      logIffDone (runTask fuel s n).1) :
    ∀ (l : List String) (s : RunnerState V E),
      Inv s → Coherent s → WellFormedGraph s → OpsTotal s → AcyclicGraph s →
      allOkProm s → reachDone s → logIffDone s →
      (∀ d ∈ l, (s.taskMap d).isSome = true) →
      (∀ d ∈ l, ∀ t, visitedOf s t = true → ¬ Reaches s d t) →
      unvisitedCount s < fuel →
      (runAllDependentTasks (runTask fuel) s l).2.2 = [] ∧
      (∀ t, ((∃ d ∈ l, Reaches s d t) →
          (promiseOf (runAllDependentTasks (runTask fuel) s l).1 t).isSome = true) ∧
        ((∀ d ∈ l, ¬ Reaches s d t) →
          promiseOf (runAllDependentTasks (runTask fuel) s l).1 t = promiseOf s t)) ∧
      allOkProm (runAllDependentTasks (runTask fuel) s l).1 ∧
      reachDone (runAllDependentTasks (runTask fuel) s l).1 ∧
      logIffDone (runAllDependentTasks (runTask fuel) s l).1 := by
  intro l
  induction l with
  | nil =>
      intro s hinv hcoh hwf hops hacy hallok hrd hlid hl hstackl hfuel
      refine ⟨rfl, ?_, hallok, hrd, hlid⟩
      intro t
      constructor
      · intro ⟨d, hd, _⟩
        exact absurd hd (List.not_mem_nil d)
      · intro _
        rfl
  | cons d rest ih =>
      intro s hinv hcoh hwf hops hacy hallok hrd hlid hl hstackl hfuel
      have hs := hstep s d hinv hcoh hwf hops hacy hallok hrd hlid
        (hl d (List.mem_cons_self d rest)) (hstackl d (List.mem_cons_self d rest)) hfuel
      have hmast := runTask_master [] fuel s d hinv (cycinv_nil s) hcoh (succClosed_nil s) hfuel
      cases hr : runTask fuel s d with
      | mk s₁ r =>
        rw [hr] at hs hmast
        obtain ⟨⟨v, hv⟩, hprm, hallok1, hrd1, hlid1⟩ := hs
        have hv2 : r = Except.ok v := hv
        subst hv2
        have hinv1 : Inv s₁ := hmast.inv
        have hcoh1 : Coherent s₁ := framed_coherent hmast.framed hcoh
        have hwf1 : WellFormedGraph s₁ := framed_wellFormed hmast.framed hwf
        have hops1 : OpsTotal s₁ := framed_opsTotal hmast.framed hops
        have hacy1 : AcyclicGraph s₁ := framed_acyclic hmast.framed hacy
        have hreq : Reaches s₁ = Reaches s := framed_reaches hmast.framed
        have hfuel1 : unvisitedCount s₁ < fuel := by
          rw [unvisitedCount_congr hmast.framed.2.1 hmast.vis]
          exact hfuel
        have hl1 : ∀ x ∈ rest, (s₁.taskMap x).isSome = true := by
          intro x hx
          rw [framed_isSome hmast.framed x]
          exact hl x (List.mem_cons_of_mem d hx)
        have hstackl1 : ∀ x ∈ rest, ∀ t, visitedOf s₁ t = true → ¬ Reaches s₁ x t := by
          intro x hx t hvt
          rw [hreq]
          rw [hmast.vis t] at hvt
          exact hstackl x (List.mem_cons_of_mem d hx) t hvt
        have hrest := ih s₁ hinv1 hcoh1 hwf1 hops1 hacy1 hallok1 hrd1 hlid1 hl1 hstackl1 hfuel1
        have hdeps2 := runAll_master [] fuel (fun s n => runTask_master [] fuel s n) rest s₁ hinv1 (cycinv_nil s₁)
          hcoh1 (succClosed_nil s₁) hfuel1
        cases hr2 : runAllDependentTasks (runTask fuel) s₁ rest with
        | mk s₂ pr =>
          cases pr with
          | mk results2 failed2 =>
            rw [hr2] at hrest hdeps2
            obtain ⟨hfail2, hprm2, hallok2, hrd2, hlid2⟩ := hrest
            have hsomemono : ∀ t, (promiseOf s₁ t).isSome = true →
                (promiseOf s₂ t).isSome = true := by
              intro t ht
              cases hpt : promiseOf s₁ t with
              | none => rw [hpt] at ht; cases ht
              | some o =>
                  rw [hdeps2.promMono t o hpt]
                  rfl
            simp only [runAllDependentTasks, hr, hr2]
            refine ⟨hfail2, ?_, hallok2, hrd2, hlid2⟩
            intro t
            constructor
            · intro ⟨x, hx, hreach⟩
              rcases List.mem_cons.mp hx with hxd | hxr
              · subst hxd
                exact hsomemono t ((hprm t).1 hreach)
              · refine (hprm2 t).1 ⟨x, hxr, ?_⟩
                rw [hreq]
                exact hreach
            · intro hnone
              have h1 : promiseOf s₂ t = promiseOf s₁ t := by
                refine (hprm2 t).2 ?_
                intro x hx
                rw [hreq]
                exact hnone x (List.mem_cons_of_mem d hx)
              rw [h1]
              exact (hprm t).2 (hnone d (List.mem_cons_self d rest))


theorem taskMap_isSome_of_depsOf {s : RunnerState V E} {t : String}
    (h : (depsOf s t).isSome = true) : (s.taskMap t).isSome = true := by
  unfold depsOf at h
  cases hm : s.taskMap t with
  | none => rw [hm] at h; cases h
  | some i => rfl

theorem allOkProm_congr {s s' : RunnerState V E}
    (hp : ∀ t, promiseOf s' t = promiseOf s t) (h : allOkProm s) : allOkProm s' := by
  intro t o ho
  rw [hp t] at ho
  exact h t o ho

theorem reachDone_congr {s s' : RunnerState V E}
    (hp : ∀ t, promiseOf s' t = promiseOf s t) (hre : Reaches s' = Reaches s)
    (h : reachDone s) : reachDone s' := by
  intro t v hv u hu
  rw [hp t] at hv
  rw [hre] at hu
  rw [hp u]
  exact h t v hv u hu

theorem logIffDone_congr {s s' : RunnerState V E}
    (hp : ∀ t, promiseOf s' t = promiseOf s t) (hlg : s'.invocationLog = s.invocationLog)
    (h : logIffDone s) : logIffDone s' := by
  intro t
  rw [logIffDone] at h
  rw [hlg, hp t]
  exact h t

theorem success_exit {sb s₃ : RunnerState V E} {name : String} {rm : ResultMap V} {v : V}
    (hpm : ∀ t, promiseOf s₃ t = if t = name then some (Except.ok v) else promiseOf sb t)
    (hlg : s₃.invocationLog = sb.invocationLog ++ [(name, rm)])
    (hre : Reaches s₃ = Reaches sb)
    (hallok : allOkProm sb) (hrd : reachDone sb) (hlid : logIffDone sb)
    (hreachname : ∀ u, Reaches sb name u → u ≠ name → (promiseOf sb u).isSome = true) :
    allOkProm s₃ ∧ reachDone s₃ ∧ logIffDone s₃ := by
  refine ⟨?_, ?_, ?_⟩
  · intro t o ho
    rw [hpm t] at ho
    by_cases ht : t = name
    · rw [if_pos ht] at ho
      exact ⟨v, (Option.some.inj ho).symm⟩
    · rw [if_neg ht] at ho
      exact hallok t o ho
  · intro t w hw u hu
    rw [hre] at hu
    rw [hpm t] at hw
    rw [hpm u]
    by_cases hu2 : u = name
    · rw [if_pos hu2]
      rfl
    · rw [if_neg hu2]
      by_cases ht : t = name
      · subst ht
        exact hreachname u hu hu2
      · rw [if_neg ht] at hw
        exact hrd t w hw u hu
  · intro t
    constructor
    · intro ⟨rm2, hmem⟩
      rw [hlg] at hmem
      rw [hpm t]
      by_cases ht : t = name
      · rw [if_pos ht]
        rfl
      · rw [if_neg ht]
        rcases List.mem_append.mp hmem with h1 | h2
        · exact (hlid t).mp ⟨rm2, h1⟩
        · exfalso
          have h3 := List.mem_singleton.mp h2
          exact ht (congrArg Prod.fst h3)
    · intro hsome
      rw [hpm t] at hsome
      by_cases ht : t = name
      · subst ht
        exact ⟨rm, by rw [hlg]; exact List.mem_append.mpr (Or.inr (List.mem_singleton.mpr rfl))⟩
      · rw [if_neg ht] at hsome
        obtain ⟨rm2, hm2⟩ := (hlid t).mpr hsome
        exact ⟨rm2, by rw [hlg]; exact List.mem_append.mpr (Or.inl hm2)⟩


theorem runTask_success :
    ∀ (fuel : Nat) (s : RunnerState V E) (n : String),
      Inv s → Coherent s → WellFormedGraph s → OpsTotal s → AcyclicGraph s →
      allOkProm s → reachDone s → logIffDone s →
      (s.taskMap n).isSome = true → (∀ t, visitedOf s t = true → ¬ Reaches s n t) →
      unvisitedCount s < fuel →
      (∃ v, (runTask fuel s n).2 = Except.ok v) ∧
      (∀ t, (Reaches s n t → (promiseOf (runTask fuel s n).1 t).isSome = true) ∧
        (¬ Reaches s n t → promiseOf (runTask fuel s n).1 t = promiseOf s t)) ∧
      allOkProm (runTask fuel s n).1 ∧ reachDone (runTask fuel s n).1 ∧
      logIffDone (runTask fuel s n).1 := by
  intro fuel
  induction fuel with
  | zero =>
      intro s name _ _ _ _ _ _ _ _ _ _ hfuel
      omega
  | succ fuel ih =>
      intro s name hinv hcoh hwf hops hacy hallok hrd hlid hreg hstack hfuel
      simp only [runTask]
      split
      · next hm =>
          rw [hm] at hreg
          cases hreg
      · next info hm =>
          split
          · next hv =>
              exfalso
              have hvis : visitedOf s name = true := by simp [visitedOf, hm, hv]
              exact hstack name hvis Relation.ReflTransGen.refl
          · next hv =>
              have hv2 : info.visited = false := by
                revert hv
                cases info.visited <;> simp
              split
              · next outcome hp =>
                  have hps : promiseOf s name = some outcome := by simp [promiseOf, hm, hp]
                  obtain ⟨v, hov⟩ := hallok name outcome hps
                  subst hov
                  refine ⟨⟨v, rfl⟩, ?_, hallok, hrd, hlid⟩
                  intro t
                  exact ⟨fun hreach => hrd name v hps t hreach, fun _ => rfl⟩
              · next hp =>
                  cases hb : runTaskBody (runTask fuel) (updateTask s name markVisited) info name with
                  | mk s₂ outcome =>
                    have hframe1 : Framed s (updateTask s name markVisited) :=
                      framed_updateTask s name markVisited markVisited_persist
                    have hinv1 := inv_mark s name info hm hp hv2 hinv
                    have hcoh1 := framed_coherent hframe1 hcoh
                    have hwf1 := framed_wellFormed hframe1 hwf
                    have hops1 := framed_opsTotal hframe1 hops
                    have hacy1 := framed_acyclic hframe1 hacy
                    have hre1 : Reaches (updateTask s name markVisited) = Reaches s :=
                      framed_reaches hframe1
                    have hpm1 : ∀ t, promiseOf (updateTask s name markVisited) t = promiseOf s t :=
                      promiseOf_mark s name
                    have hallok1 : allOkProm (updateTask s name markVisited) :=
                      allOkProm_congr hpm1 hallok
                    have hrd1 : reachDone (updateTask s name markVisited) :=
                      reachDone_congr hpm1 hre1 hrd
                    have hlid1 : logIffDone (updateTask s name markVisited) :=
                      logIffDone_congr hpm1 (log_updateTask s name markVisited) hlid
                    have hfuel1 : unvisitedCount (updateTask s name markVisited) < fuel := by
                      have h2 := unvisitedCount_mark hcoh hm hv2
                      omega
                    have hdeps : depsOf s name = some info.dependencies := by
                      simp [depsOf, hm]
                    have hedge : ∀ x ∈ info.dependencies, dependsOn s name x :=
                      fun x hx => ⟨info.dependencies, hdeps, hx⟩
                    have hopname : opOf s name = some info.task := by
                      simp [opOf, hm]
                    have hl1 : ∀ x ∈ info.dependencies,
                        ((updateTask s name markVisited).taskMap x).isSome = true := by
                      intro x hx
                      rw [framed_isSome hframe1 x]
                      exact taskMap_isSome_of_depsOf (hwf name info.dependencies hdeps x hx)
                    have hstack1 : ∀ x ∈ info.dependencies, ∀ t,
                        visitedOf (updateTask s name markVisited) t = true →
                        ¬ Reaches (updateTask s name markVisited) x t := by
                      intro x hx t hvt
                      rw [hre1]
                      intro hreach2
                      by_cases ht : t = name
                      · subst ht
                        exact hacy t (Relation.TransGen.head' (hedge x hx) hreach2)
                      · rw [visitedOf_mark_ne s name t ht] at hvt
                        exact hstack t hvt (Relation.ReflTransGen.head (hedge x hx) hreach2)
                    rcases runTaskBody_spec (runTask fuel) _ info name hb with
                      ⟨hdepsE, hstand⟩ | ⟨d, rest, sd, results, hdepsE, hall, hstand⟩ |
                      ⟨d, rest, results, f, fs, hdepsE, hall, hout⟩
                    · -- no dependencies: the body runs immediately and succeeds
                      obtain ⟨v, hok⟩ := hops name info.task hopname []
                      rw [runStandaloneTask_of_ok hok] at hstand
                      obtain ⟨hs2, hout⟩ := Prod.mk.inj hstand
                      subst hout
                      have hpm2 : ∀ t, promiseOf s₂ t = promiseOf s t := by
                        intro t
                        rw [← hs2]
                        exact hpm1 t
                      have htm2 : s₂.taskMap name = some (markVisited info) := by
                        rw [← hs2]
                        exact taskMap_updateTask_self s name markVisited info hm
                      have hframe2 : Framed (updateTask s name markVisited) s₂ := by
                        rw [← hs2]
                        exact ⟨rfl, rfl, rfl⟩
                      have hlg2 : s₂.invocationLog = s.invocationLog ++ [(name, [])] := by
                        rw [← hs2]
                        rfl
                      have hframe3 : Framed s (updateTask s₂ name (settle (Except.ok v))) :=
                        (hframe1.trans hframe2).trans
                          (framed_updateTask s₂ name _ (settle_persist _))
                      have hpm3 : ∀ t, promiseOf (updateTask s₂ name (settle (Except.ok v))) t =
                          if t = name then some (Except.ok v) else promiseOf s t := by
                        intro t
                        by_cases ht : t = name
                        · rw [if_pos ht, ht]
                          exact promiseOf_settle_self s₂ name _ (markVisited info) htm2
                        · rw [if_neg ht, promiseOf_settle_ne s₂ name _ t ht]
                          exact hpm2 t
                      have hlg3 : (updateTask s₂ name (settle (Except.ok v))).invocationLog =
                          s.invocationLog ++ [(name, [])] := hlg2
                      have hreachA : ∀ u, Reaches s name u → u ≠ name →
                          (promiseOf s u).isSome = true := by
                        intro u hu hne
                        rcases Relation.ReflTransGen.cases_head hu with h1 | ⟨x, hx, _⟩
                        · exact absurd h1.symm hne
                        · exfalso
                          obtain ⟨ds, hds, hxds⟩ := hx
                          rw [hdeps] at hds
                          have hds2 : info.dependencies = ds := Option.some.inj hds
                          rw [← hds2, hdepsE] at hxds
                          exact absurd hxds (List.not_mem_nil x)
                      obtain ⟨hallok3, hrd3, hlid3⟩ :=
                        success_exit hpm3 hlg3 (framed_reaches hframe3) hallok hrd hlid hreachA
                      have hview : ∀ t,
                          (Reaches s name t →
                            (promiseOf (updateTask s₂ name (settle (Except.ok v))) t).isSome = true) ∧
                          (¬ Reaches s name t →
                            promiseOf (updateTask s₂ name (settle (Except.ok v))) t = promiseOf s t) := by
                        intro t
                        constructor
                        · intro hreach
                          rw [hpm3 t]
                          by_cases ht : t = name
                          · rw [if_pos ht]
                            rfl
                          · rw [if_neg ht]
                            exact hreachA t hreach ht
                        · intro hnreach
                          have ht : t ≠ name := by
                            intro he
                            subst he
                            exact hnreach Relation.ReflTransGen.refl
                          rw [hpm3 t, if_neg ht]
                      exact ⟨⟨v, rfl⟩, hview, hallok3, hrd3, hlid3⟩
                    · -- dependencies d :: rest, all succeeded
                      rw [hdepsE] at hl1 hstack1
                      have hrest := runDeps_success fuel ih (d :: rest)
                        (updateTask s name markVisited) hinv1 hcoh1 hwf1 hops1 hacy1
                        hallok1 hrd1 hlid1 hl1 hstack1 hfuel1
                      have hdm := runAll_master [] fuel (fun s n => runTask_master [] fuel s n)
                        (d :: rest) (updateTask s name markVisited) hinv1 (cycinv_nil _)
                        hcoh1 (succClosed_nil _) hfuel1
                      rw [hall] at hrest hdm
                      obtain ⟨_, hprmD, hallokD, hrdD, hlidD⟩ := hrest
                      have hframeD : Framed (updateTask s name markVisited) sd := hdm.framed
                      have hfsd : Framed s sd := hframe1.trans hframeD
                      obtain ⟨v, hok⟩ := hops name info.task hopname results
                      rw [runStandaloneTask_of_ok hok] at hstand
                      obtain ⟨hs2, hout⟩ := Prod.mk.inj hstand
                      subst hout
                      have hsdsome : (sd.taskMap name).isSome = true := by
                        rw [framed_isSome hfsd name, hm]
                        rfl
                      obtain ⟨isd, hisd⟩ : ∃ i, sd.taskMap name = some i := by
                        cases hmi : sd.taskMap name with
                        | none => rw [hmi] at hsdsome; cases hsdsome
                        | some i => exact ⟨i, rfl⟩
                      have hpm2 : ∀ t, promiseOf s₂ t = promiseOf sd t := by
                        intro t
                        rw [← hs2]
                        rfl
                      have htm2 : s₂.taskMap name = some isd := by
                        rw [← hs2]
                        exact hisd
                      have hframe2 : Framed sd s₂ := by
                        rw [← hs2]
                        exact ⟨rfl, rfl, rfl⟩
                      have hlg2 : s₂.invocationLog = sd.invocationLog ++ [(name, results)] := by
                        rw [← hs2]
                      have hframe23 : Framed sd (updateTask s₂ name (settle (Except.ok v))) :=
                        hframe2.trans (framed_updateTask s₂ name _ (settle_persist _))
                      have hframe3 : Framed s (updateTask s₂ name (settle (Except.ok v))) :=
                        hfsd.trans hframe23
                      have hpm3 : ∀ t, promiseOf (updateTask s₂ name (settle (Except.ok v))) t =
                          if t = name then some (Except.ok v) else promiseOf sd t := by
                        intro t
                        by_cases ht : t = name
                        · rw [if_pos ht, ht]
                          exact promiseOf_settle_self s₂ name _ isd htm2
                        · rw [if_neg ht, promiseOf_settle_ne s₂ name _ t ht]
                          exact hpm2 t
                      have hlg3 : (updateTask s₂ name (settle (Except.ok v))).invocationLog =
                          sd.invocationLog ++ [(name, results)] := hlg2
                      have hreachB : ∀ u, Reaches sd name u → u ≠ name →
                          (promiseOf sd u).isSome = true := by
                        intro u hu hne
                        rw [framed_reaches hfsd] at hu
                        rcases Relation.ReflTransGen.cases_head hu with h1 | ⟨x, hx, hxu⟩
                        · exact absurd h1.symm hne
                        · obtain ⟨ds, hds, hxds⟩ := hx
                          rw [hdeps] at hds
                          have hds2 : info.dependencies = ds := Option.some.inj hds
                          rw [← hds2, hdepsE] at hxds
                          refine (hprmD u).1 ⟨x, hxds, ?_⟩
                          rw [hre1]
                          exact hxu
                      obtain ⟨hallok3, hrd3, hlid3⟩ :=
                        success_exit hpm3 hlg3 (framed_reaches hframe23) hallokD hrdD hlidD hreachB
                      have hview : ∀ t,
                          (Reaches s name t →
                            (promiseOf (updateTask s₂ name (settle (Except.ok v))) t).isSome = true) ∧
                          (¬ Reaches s name t →
                            promiseOf (updateTask s₂ name (settle (Except.ok v))) t = promiseOf s t) := by
                        intro t
                        constructor
                        · intro hreach
                          rw [hpm3 t]
                          by_cases ht : t = name
                          · rw [if_pos ht]
                            rfl
                          · rw [if_neg ht]
                            have hreach2 : Reaches sd name t := by
                              rw [framed_reaches hfsd]
                              exact hreach
                            exact hreachB t hreach2 ht
                        · intro hnreach
                          have ht : t ≠ name := by
                            intro he
                            subst he
                            exact hnreach Relation.ReflTransGen.refl
                          rw [hpm3 t, if_neg ht]
                          have hnl : ∀ x ∈ d :: rest, ¬ Reaches (updateTask s name markVisited) x t := by
                            intro x hx
                            rw [hre1]
                            intro hreach2
                            refine hnreach (Relation.ReflTransGen.head (hedge x ?_) hreach2)
                            rw [hdepsE]
                            exact hx
                          rw [(hprmD t).2 hnl]
                          exact hpm1 t
                      exact ⟨⟨v, rfl⟩, hview, hallok3, hrd3, hlid3⟩
                    · -- dependency failure is impossible: every dependency succeeds
                      exfalso
                      rw [hdepsE] at hl1 hstack1
                      have hrest := runDeps_success fuel ih (d :: rest)
                        (updateTask s name markVisited) hinv1 hcoh1 hwf1 hops1 hacy1
                        hallok1 hrd1 hlid1 hl1 hstack1 hfuel1
                      have hfail := hrest.1
                      rw [hall] at hfail
                      exact absurd hfail (List.cons_ne_nil f fs)


/-- C1.  On an acyclic, well-formed graph (every dependency registered, no
dependency cycle) whose operations all succeed, started from a clean runner
with `root` registered: `run root` resolves, and the run's invocation log
records exactly one invocation of every task in root's transitive dependency
closure and none of any other task — a dependency shared by several
dependents (diamond shape) is invoked once, the later dependents observing
the single memoized promise. -/
theorem run_executes_closure_once (s : RunnerState V E) (root : String)
    (hexec : s.execInProgress = false) (hclean : Clean s) (hcoh : Coherent s)
    (hwf : WellFormedGraph s) (hops : OpsTotal s) (hacy : AcyclicGraph s)
    (hreg : (s.taskMap root).isSome = true) :
    (∃ v, (run s root).2 = RunResult.resolved v) ∧
    (∀ t, Reaches s root t → countInv (run s root).1.invocationLog t = 1) ∧
    (∀ t, ¬ Reaches s root t → countInv (run s root).1.invocationLog t = 0) := by
  obtain ⟨s₁, r, hr, hcases⟩ := run_spec s root hexec
  have hclean0 : Clean ({ s with execInProgress := true, taskErrorMap := [], invocationLog := [], cycleLog := [] } : RunnerState V E) := hclean
  have hframe0 : Framed s ({ s with execInProgress := true, taskErrorMap := [], invocationLog := [], cycleLog := [] } : RunnerState V E) := ⟨rfl, rfl, rfl⟩
  have hallok0 : allOkProm ({ s with execInProgress := true, taskErrorMap := [], invocationLog := [], cycleLog := [] } : RunnerState V E) := by
    intro t o ho
    rw [promiseOf_of_clean hclean0 t] at ho
    cases ho
  have hrd0 : reachDone ({ s with execInProgress := true, taskErrorMap := [], invocationLog := [], cycleLog := [] } : RunnerState V E) := by
    intro t v hv u hu
    rw [promiseOf_of_clean hclean0 t] at hv
    cases hv
  have hlid0 : logIffDone ({ s with execInProgress := true, taskErrorMap := [], invocationLog := [], cycleLog := [] } : RunnerState V E) := by
    intro t
    constructor
    · intro ⟨rm, hmem⟩
      exact absurd hmem (List.not_mem_nil _)
    · intro hsome
      rw [promiseOf_of_clean hclean0 t] at hsome
      cases hsome
  have hstack0 : ∀ t, visitedOf ({ s with execInProgress := true, taskErrorMap := [], invocationLog := [], cycleLog := [] } : RunnerState V E) t = true → ¬ Reaches ({ s with execInProgress := true, taskErrorMap := [], invocationLog := [], cycleLog := [] } : RunnerState V E) root t := by
    intro t hvt
    rw [visitedOf_of_clean hclean0 t] at hvt
    cases hvt
  have hsucc := runTask_success (s.names.length + 1) ({ s with execInProgress := true, taskErrorMap := [], invocationLog := [], cycleLog := [] } : RunnerState V E) root
    (inv_of_clean hclean0 rfl rfl) hcoh hwf hops hacy hallok0 hrd0 hlid0 hreg
    hstack0 (run_fuel_ok s)
  have hmast := runTask_master [] (s.names.length + 1) ({ s with execInProgress := true, taskErrorMap := [], invocationLog := [], cycleLog := [] } : RunnerState V E) root
    (inv_of_clean hclean0 rfl rfl) (cycinv_nil _) hcoh (succClosed_nil _) (run_fuel_ok s)
  rw [hr] at hsucc hmast
  obtain ⟨⟨v, hv⟩, hview, hallok1, hrd1, hlid1⟩ := hsucc
  have hv2 : r = Except.ok v := hv
  subst hv2
  rcases hcases with ⟨w, hrw, hrun⟩ | ⟨e, hre2, hrun⟩
  · have hwv : v = w := Except.ok.inj hrw
    subst hwv
    rw [hrun]
    refine ⟨⟨v, rfl⟩, ?_, ?_⟩
    · intro t hreacht
      show countInv s₁.invocationLog t = 1
      have hreach0 : Reaches ({ s with execInProgress := true, taskErrorMap := [], invocationLog := [], cycleLog := [] } : RunnerState V E) root t := by
        rw [framed_reaches hframe0]
        exact hreacht
      have hsome : (promiseOf s₁ t).isSome = true := (hview t).1 hreach0
      exact countInv_one hmast.inv.logOnce ((hlid1 t).mpr hsome)
    · intro t hnreacht
      show countInv s₁.invocationLog t = 0
      refine countInv_zero ?_
      intro rm hmem
      have hsome := (hlid1 t).mp ⟨rm, hmem⟩
      have hnone : promiseOf s₁ t = promiseOf ({ s with execInProgress := true, taskErrorMap := [], invocationLog := [], cycleLog := [] } : RunnerState V E) t := by
        refine (hview t).2 ?_
        rw [framed_reaches hframe0]
        exact hnreacht
      rw [hnone, promiseOf_of_clean hclean0 t] at hsome
      cases hsome
  · cases hre2


theorem acyclic_of_rank (s : RunnerState V E) (rank : String → Nat)
    (h : ∀ a b, dependsOn s a b → rank b < rank a) : AcyclicGraph s := by
  intro t ht
  have h2 : ∀ a b, Relation.TransGen (dependsOn s) a b → rank b < rank a := by
    intro a b hab
    induction hab with
    | single hx => exact h _ _ hx
    | tail hab2 hbc ih => exact lt_trans (h _ _ hbc) ih
  exact absurd (h2 t t ht) (lt_irrefl _)

/-- The diamond graph `root → a → d`, `root → b → d`, built through
`addTask`: the shared dependency `d` is reached through both parents. -/
def c1Graph : RunnerState Nat Nat :=
  (addTask (addTask (addTask (addTask (initialState Nat Nat)
    "d" [] (fun _ => Except.ok 1)).1
    "a" ["d"] (fun _ => Except.ok 2)).1
    "b" ["d"] (fun _ => Except.ok 3)).1
    "root" ["a", "b"] (fun _ => Except.ok 4)).1

theorem c1Graph_taskMap (n : String) : c1Graph.taskMap n =
    if n = "root" then some ⟨["a", "b"], fun _ => Except.ok 4, none, false⟩
    else if n = "b" then some ⟨["d"], fun _ => Except.ok 3, none, false⟩
    else if n = "a" then some ⟨["d"], fun _ => Except.ok 2, none, false⟩
    else if n = "d" then some ⟨[], fun _ => Except.ok 1, none, false⟩
    else none := rfl

theorem c1Graph_clean : Clean c1Graph := by
  intro t i h
  rw [c1Graph_taskMap t] at h
  split at h
  · cases h
    exact ⟨rfl, rfl⟩
  · split at h
    · cases h
      exact ⟨rfl, rfl⟩
    · split at h
      · cases h
        exact ⟨rfl, rfl⟩
      · split at h
        · cases h
          exact ⟨rfl, rfl⟩
        · cases h

theorem c1Graph_coherent : Coherent c1Graph := by
  constructor
  · intro n
    rw [show ((c1Graph.taskMap n).isSome = true) = ((if n = "root"
        then some (⟨["a", "b"], fun _ => Except.ok 4, none, false⟩ : TaskInfo Nat Nat)
        else if n = "b" then some ⟨["d"], fun _ => Except.ok 3, none, false⟩
        else if n = "a" then some ⟨["d"], fun _ => Except.ok 2, none, false⟩
        else if n = "d" then some ⟨[], fun _ => Except.ok 1, none, false⟩
        else none).isSome = true) from congrArg (fun o => (Option.isSome o = true)) (c1Graph_taskMap n)]
    by_cases h1 : n = "root"
    · simp [h1, c1Graph, addTask, initialState]
    · by_cases h2 : n = "b"
      · simp [h1, h2, c1Graph, addTask, initialState]
      · by_cases h3 : n = "a"
        · simp [h1, h2, h3, c1Graph, addTask, initialState]
        · by_cases h4 : n = "d"
          · simp [h1, h2, h3, h4, c1Graph, addTask, initialState]
          · simp [h1, h2, h3, h4, c1Graph, addTask, initialState]
  · show List.Nodup c1Graph.names
    decide

theorem c1Graph_wellFormed : WellFormedGraph c1Graph := by
  intro a ds hds x hx
  unfold depsOf at hds ⊢
  rw [c1Graph_taskMap a] at hds
  rw [c1Graph_taskMap x]
  split at hds
  · simp only [Option.map_some'] at hds
    have h2 := Option.some.inj hds
    subst h2
    rcases List.mem_cons.mp hx with h | h
    · subst h
      rfl
    · rw [List.mem_singleton.mp h]
      rfl
  · split at hds
    · simp only [Option.map_some'] at hds
      have h2 := Option.some.inj hds
      subst h2
      rw [List.mem_singleton.mp hx]
      rfl
    · split at hds
      · simp only [Option.map_some'] at hds
        have h2 := Option.some.inj hds
        subst h2
        rw [List.mem_singleton.mp hx]
        rfl
      · split at hds
        · simp only [Option.map_some'] at hds
          have h2 := Option.some.inj hds
          subst h2
          cases hx
        · cases hds

theorem c1Graph_opsTotal : OpsTotal c1Graph := by
  intro a op hop rm
  unfold opOf at hop
  rw [c1Graph_taskMap a] at hop
  split at hop
  · simp only [Option.map_some'] at hop
    have h2 := Option.some.inj hop
    exact ⟨4, by rw [← h2]⟩
  · split at hop
    · simp only [Option.map_some'] at hop
      have h2 := Option.some.inj hop
      exact ⟨3, by rw [← h2]⟩
    · split at hop
      · simp only [Option.map_some'] at hop
        have h2 := Option.some.inj hop
        exact ⟨2, by rw [← h2]⟩
      · split at hop
        · simp only [Option.map_some'] at hop
          have h2 := Option.some.inj hop
          exact ⟨1, by rw [← h2]⟩
        · cases hop

theorem c1Graph_acyclic : AcyclicGraph c1Graph := by
  refine acyclic_of_rank c1Graph
    (fun n => if n = "root" then 2 else if n = "d" then 0 else 1) ?_
  intro a b hab
  obtain ⟨ds, hds, hbds⟩ := hab
  unfold depsOf at hds
  rw [c1Graph_taskMap a] at hds
  split at hds
  · next ha =>
      subst ha
      simp only [Option.map_some'] at hds
      have h2 := Option.some.inj hds
      subst h2
      rcases List.mem_cons.mp hbds with h | h
      · subst h
        decide
      · rw [List.mem_singleton.mp h]
        decide
  · next ha =>
    split at hds
    · next hb2 =>
        subst hb2
        simp only [Option.map_some'] at hds
        have h2 := Option.some.inj hds
        subst h2
        rw [List.mem_singleton.mp hbds]
        decide
    · next hb2 =>
      split at hds
      · next ha2 =>
          subst ha2
          simp only [Option.map_some'] at hds
          have h2 := Option.some.inj hds
          subst h2
          rw [List.mem_singleton.mp hbds]
          decide
      · next ha2 =>
        split at hds
        · simp only [Option.map_some'] at hds
          have h2 := Option.some.inj hds
          subst h2
          cases hbds
        · cases hds

theorem run_executes_closure_once_witness :
    (c1Graph.execInProgress = false) ∧ Clean c1Graph ∧ Coherent c1Graph ∧
    WellFormedGraph c1Graph ∧ OpsTotal c1Graph ∧ AcyclicGraph c1Graph ∧
    ((c1Graph.taskMap "root").isSome = true) ∧
    ((∃ v, (run c1Graph "root").2 = RunResult.resolved v) ∧
      (∀ t, Reaches c1Graph "root" t → countInv (run c1Graph "root").1.invocationLog t = 1) ∧
      (∀ t, ¬ Reaches c1Graph "root" t →
        countInv (run c1Graph "root").1.invocationLog t = 0)) := by
  have h1 : c1Graph.execInProgress = false := rfl
  have h7 : (c1Graph.taskMap "root").isSome = true := rfl
  exact ⟨h1, c1Graph_clean, c1Graph_coherent, c1Graph_wellFormed, c1Graph_opsTotal,
    c1Graph_acyclic, h7,
    run_executes_closure_once c1Graph "root" h1 c1Graph_clean c1Graph_coherent
      c1Graph_wellFormed c1Graph_opsTotal c1Graph_acyclic h7⟩

/-- C10.  `run` — whether it resolves, rejects or throws — leaves the
persistent graph untouched: registered names, stored dependency lists and
stored operations are the same before and after; only the transient per-run
fields (`promise`, `visited`, `taskErrorMap`, `execInProgress` and the
instrumentation logs) are written. -/
theorem run_preserves_persistent_graph (s : RunnerState V E) (taskName : String) :
    persistOf (run s taskName).1 = persistOf s ∧ (run s taskName).1.names = s.names := by
  unfold run runWith
  by_cases hexec : s.execInProgress
  · simp [hexec]
  · simp only [hexec, ite_false, Bool.false_eq_true]
    have h₁ := framed_runTask (s.names.length + 1) ({ s with execInProgress := true, taskErrorMap := [], invocationLog := [], cycleLog := [] } : RunnerState V E) taskName
    cases hr : runTask (s.names.length + 1) ({ s with execInProgress := true, taskErrorMap := [], invocationLog := [], cycleLog := [] } : RunnerState V E) taskName with
    | mk s₁ r =>
      rw [hr] at h₁
      have h₀ : Framed s ({ s with execInProgress := true, taskErrorMap := [], invocationLog := [], cycleLog := [] } : RunnerState V E) := ⟨rfl, rfl, rfl⟩
      cases r with
      | ok v =>
          have h₂ : Framed s₁ ({ s₁ with execInProgress := false } : RunnerState V E) :=
            ⟨rfl, rfl, rfl⟩
          have h₃ := ((h₀.trans h₁).trans h₂).trans
            (framed_sweep ({ s₁ with execInProgress := false } : RunnerState V E))
          exact ⟨h₃.1, h₃.2.1⟩
      | error e =>
          have h₂ : Framed s₁ ({ s₁ with execInProgress := false, taskErrorMap := (taskName, e) :: s₁.taskErrorMap } : RunnerState V E) :=
            ⟨rfl, rfl, rfl⟩
          have h₃ := ((h₀.trans h₁).trans h₂).trans
            (framed_sweep ({ s₁ with execInProgress := false, taskErrorMap := (taskName, e) :: s₁.taskErrorMap } : RunnerState V E))
          exact ⟨h₃.1, h₃.2.1⟩

/-- C5.  While a run promise is unsettled (`execInProgress` is the flag the
source keeps `true` for exactly that window), every mutation method throws
the `You cannot modify the task tree while execution is in progress` error
synchronously and returns the state unchanged. -/
theorem mutations_throw_while_run_in_progress (s : RunnerState V E) (taskName : String)
    (deps : List String) (op : ResultMap V → Except E V) (h : s.execInProgress = true) :
    addTask s taskName deps op = (s, some MutErr.concurrency) ∧
    removeTask s taskName = (s, some MutErr.concurrency) ∧
    addDependencies s taskName deps = (s, some MutErr.concurrency) ∧
    removeDependencies s taskName deps = (s, some MutErr.concurrency) := by
  unfold addTask removeTask addDependencies removeDependencies
  rw [h]
  exact ⟨rfl, rfl, rfl, rfl⟩

theorem mutations_throw_while_run_in_progress_witness :
    (({ initialState Nat Nat with execInProgress := true } : RunnerState Nat Nat).execInProgress
        = true) ∧
    addTask ({ initialState Nat Nat with execInProgress := true } : RunnerState Nat Nat)
        "a" ["b"] (fun _ => Except.ok 0)
      = ({ initialState Nat Nat with execInProgress := true }, some MutErr.concurrency) :=
  ⟨rfl, (mutations_throw_while_run_in_progress
      ({ initialState Nat Nat with execInProgress := true } : RunnerState Nat Nat)
      "a" ["b"] (fun _ => Except.ok 0) rfl).1⟩

/-- C8 counterexample.  `addTask` stores the dependency list exactly as
passed (line 106); a duplicated dependency name stays duplicated in the
stored definition, contradicting the claimed deduplication. -/
theorem addTask_keeps_duplicates_counterexample :
    (addTask (initialState Nat Nat) "t" ["A", "A"] (fun _ => Except.ok 0)).2 = none ∧
    ((addTask (initialState Nat Nat) "t" ["A", "A"] (fun _ => Except.ok 0)).1.taskMap
        "t").map TaskInfo.dependencies = some ["A", "A"] ∧
    ¬ List.Nodup ["A", "A"] := by
  refine ⟨rfl, rfl, by decide⟩

/-- C8 amended.  A successful `addTask` stores the dependency list exactly as
given — duplicates included; only `addDependencies` deduplicates, against the
task's current list. -/
theorem addTask_stores_list_as_given (s : RunnerState V E) (taskName : String)
    (deps : List String) (op : ResultMap V → Except E V)
    (h : (addTask s taskName deps op).2 = none) :
    ((addTask s taskName deps op).1.taskMap taskName).map TaskInfo.dependencies = some deps := by
  unfold addTask at h ⊢
  by_cases hexec : s.execInProgress
  · rw [hexec] at h; simp at h
  · simp only [hexec, ite_false, Bool.false_eq_true] at h ⊢
    by_cases hover : (s.throwOnOverwrite && (s.taskMap taskName).isSome) = true
    · rw [if_pos hover] at h; simp at h
    · rw [if_neg hover] at h ⊢
      simp

theorem addTask_stores_list_as_given_witness :
    ((addTask (initialState Nat Nat) "t" ["x", "y", "x"] (fun _ => Except.ok 0)).2 = none) ∧
    ((addTask (initialState Nat Nat) "t" ["x", "y", "x"] (fun _ => Except.ok 0)).1.taskMap
        "t").map TaskInfo.dependencies = some ["x", "y", "x"] :=
  ⟨rfl, addTask_stores_list_as_given (initialState Nat Nat) "t" ["x", "y", "x"]
    (fun _ => Except.ok 0) rfl⟩

/-- C9 counterexample.  `removeDependencies` on a missing task silently does
nothing (the `if (task)` in lines 180-190 has no `else`): no
`UnknownTaskError` is raised, contradicting the claim that both dependency
mutations fail on an absent task. -/
theorem removeDependencies_missing_task_counterexample :
    removeDependencies (initialState Nat Nat) "missing" ["a"]
      = (initialState Nat Nat, none) := rfl

/-- C9 amended.  With no run in progress and `taskName` absent,
`addDependencies` throws `Can't add dependency for missing task <name>`
leaving the graph unchanged, while `removeDependencies` is a silent no-op,
also leaving the graph unchanged. -/
theorem deps_mutations_on_missing_task (s : RunnerState V E) (taskName : String)
    (deps : List String) (hexec : s.execInProgress = false) (h : s.taskMap taskName = none) :
    addDependencies s taskName deps = (s, some (MutErr.unknownTask taskName)) ∧
    removeDependencies s taskName deps = (s, none) := by
  unfold addDependencies removeDependencies
  rw [hexec, h]
  exact ⟨rfl, rfl⟩

theorem deps_mutations_on_missing_task_witness :
    ((initialState Nat Nat).execInProgress = false) ∧
    ((initialState Nat Nat).taskMap "ghost" = none) ∧
    addDependencies (initialState Nat Nat) "ghost" ["a"]
      = (initialState Nat Nat, some (MutErr.unknownTask "ghost")) ∧
    removeDependencies (initialState Nat Nat) "ghost" ["a"] = (initialState Nat Nat, none) :=
  ⟨rfl, rfl, (deps_mutations_on_missing_task (initialState Nat Nat) "ghost" ["a"] rfl rfl).1,
    (deps_mutations_on_missing_task (initialState Nat Nat) "ghost" ["a"] rfl rfl).2⟩

namespace RefModel

/-!
Reference-level model of `getTaskList` (lines 195-205).  In JavaScript the
returned object is fresh, but each value placed into it at line 200,
`map[taskName] = this.taskMap[taskName].dependencies`, is the runner's own
dependency *array*, shared by reference.  To state what sharing means, the
dependency arrays live in an explicit heap of array cells addressed by `Nat`
references; a task record stores the reference of its array, and
`getTaskList` returns name/reference pairs — the same references the runner
itself holds.  Writing through a returned reference (what a caller's `push`
or index assignment on the returned array does) therefore changes the
runner's own view of that task's dependencies. -/

/-- The graph store with reference-valued dependency arrays. -/
structure Store where
  heap : Nat → Option (List String)
  nextRef : Nat
  taskDeps : String → Option Nat
  names : List String

/-- An empty runner. -/
def empty : Store :=
  { heap := fun _ => none, nextRef := 0, taskDeps := fun _ => none, names := [] }

/-- `addTask`: allocate the caller-supplied dependency array as a fresh cell
and store its reference (line 106 keeps the array object itself). -/
def addTask (st : Store) (taskName : String) (dependencies : List String) : Store :=
  { heap := fun r => if r = st.nextRef then some dependencies else st.heap r,
    nextRef := st.nextRef + 1,
    taskDeps := fun n => if n = taskName then some st.nextRef else st.taskDeps n,
    names := if (st.taskDeps taskName).isSome then st.names else st.names ++ [taskName] }

/-- The runner's internal view of a task's current dependency list. -/
def depsView (st : Store) (taskName : String) : Option (List String) :=
  (st.taskDeps taskName).bind st.heap

/-- `getTaskList` (lines 195-205): a fresh outer mapping whose values are the
runner's own array references (line 200). -/
def getTaskList (st : Store) : List (String × Nat) :=
  st.names.filterMap (fun n => (st.taskDeps n).map (fun r => (n, r)))

/-- A caller mutating one of the returned arrays in place. -/
def writeArray (st : Store) (r : Nat) (l : List String) : Store :=
  { st with heap := fun x => if x = r then some l else st.heap x }

end RefModel

/-- C6 counterexample.  After `addTask("a", [])`, `getTaskList` returns the
single entry for `a` carrying the runner's own array (reference `0`); a
caller mutating that returned array (writing `["x"]` into it) changes the
runner's internal dependency list for `a` from `[]` to `["x"]`, contradicting
the claim that mutating the returned structure cannot affect internal
state. -/
theorem getTaskList_live_view_counterexample :
    RefModel.getTaskList (RefModel.addTask RefModel.empty "a" []) = [("a", 0)] ∧
    RefModel.depsView (RefModel.addTask RefModel.empty "a" []) "a" = some [] ∧
    RefModel.depsView
        (RefModel.writeArray (RefModel.addTask RefModel.empty "a" []) 0 ["x"]) "a"
      = some ["x"] := by
  refine ⟨rfl, rfl, rfl⟩

/-- C6 amended.  `getTaskList` returns a mapping whose keys are exactly the
registered task names and whose values are the tasks' current dependency
arrays; the outer mapping is fresh, but each per-task dependency array is the
runner's own array shared by reference, so mutating a returned array changes
the runner's dependency list for that task (a live view, not a snapshot). -/
theorem getTaskList_keys_exact_and_arrays_shared (st : RefModel.Store)
    (hN : ∀ n, (st.taskDeps n).isSome ↔ n ∈ st.names) :
    (∀ n r, (n, r) ∈ RefModel.getTaskList st ↔ st.taskDeps n = some r) ∧
    (∀ n r, (n, r) ∈ RefModel.getTaskList st →
      RefModel.depsView st n = st.heap r ∧
      ∀ l, RefModel.depsView (RefModel.writeArray st r l) n = some l) := by
  have hmem : ∀ n r, (n, r) ∈ RefModel.getTaskList st ↔ st.taskDeps n = some r := by
    intro n r
    constructor
    · intro h
      rcases List.mem_filterMap.mp h with ⟨n', hn', hmap⟩
      cases ht : st.taskDeps n' with
      | none => rw [ht] at hmap; simp at hmap
      | some r' =>
          rw [ht] at hmap
          simp only [Option.map_some', Option.some.injEq, Prod.mk.injEq] at hmap
          rcases hmap with ⟨h1, h2⟩
          rw [← h1, ht, h2]
    · intro h
      refine List.mem_filterMap.mpr ⟨n, ?_, ?_⟩
      · exact (hN n).mp (by rw [h]; rfl)
      · rw [h]; rfl
  refine ⟨hmem, ?_⟩
  intro n r h
  have ht := (hmem n r).mp h
  constructor
  · simp [RefModel.depsView, ht]
  · intro l
    simp [RefModel.depsView, RefModel.writeArray, ht]

theorem getTaskList_keys_exact_and_arrays_shared_witness :
    (∀ n, ((RefModel.addTask RefModel.empty "a" []).taskDeps n).isSome
        ↔ n ∈ (RefModel.addTask RefModel.empty "a" []).names) ∧
    (("a", 0) ∈ RefModel.getTaskList (RefModel.addTask RefModel.empty "a" []) ↔
      (RefModel.addTask RefModel.empty "a" []).taskDeps "a" = some 0) := by
  have hN : ∀ n, ((RefModel.addTask RefModel.empty "a" []).taskDeps n).isSome
      ↔ n ∈ (RefModel.addTask RefModel.empty "a" []).names := by
    intro n
    by_cases h : n = "a" <;> simp [RefModel.addTask, RefModel.empty, h]
  exact ⟨hN, (getTaskList_keys_exact_and_arrays_shared (RefModel.addTask RefModel.empty "a" [])
    hN).1 "a" 0⟩

/-- C4 (code bug).  On the failing input — a graph with the single task `t`
whose operation fails, run twice sequentially — the first run invokes `t`
once and rejects, but its rejected promise survives the run (`task.promise`
is reset only inside the `.then` success handler at line 283, which never
fires for a rejection), so the second run returns the stale rejection from
the first run without invoking `t` at all.  This contradicts the per-run
discard of the memoized promise (and the intent recorded by the test
`executes dependent tasks once per run call, not caching between top-level
executions`). -/
theorem rerun_after_failure_returns_stale_promise :
    (run (addTask (initialState Nat Nat) "t" [] (fun _ => Except.error 9)).1 "t").1.invocationLog
      = [("t", [])] ∧
    (run (addTask (initialState Nat Nat) "t" [] (fun _ => Except.error 9)).1 "t").2
      = RunResult.rejected [("t", RunErr.body 9), ("t", RunErr.body 9)] ∧
    promiseOf (run (addTask (initialState Nat Nat) "t" [] (fun _ => Except.error 9)).1 "t").1 "t"
      = some (Except.error (RunErr.body 9)) ∧
    (run (run (addTask (initialState Nat Nat) "t" [] (fun _ => Except.error 9)).1 "t").1
        "t").1.invocationLog = [] ∧
    (run (run (addTask (initialState Nat Nat) "t" [] (fun _ => Except.error 9)).1 "t").1 "t").2
      = RunResult.rejected [("t", RunErr.body 9)] := by
  exact ⟨rfl, rfl, rfl, rfl, rfl⟩

end TaskerLib
